import Mathlib

/-!
Shallow embedding of goresolve's `resolve.go`.

Modelling conventions:
* A `Cat` (category) models a Go `reflect.Type`: an opaque identifier compared by
  equality.  Which types implement the `error` interface is a fixed property of the
  modelled type universe, `implementsError`.
* A `Resolver` models the Go `Resolver` struct.  `fid` is the identity of the
  underlying Go function value (two distinct function values have distinct `fid`s);
  `reflect.TypeOf(r.ResolverFunc)` observes only `isFunc`, `ins` and `outs`,
  never `fid`.
* `ProductionMap` (`map[reflect.Type][]Resolver` in Go) is an association list with
  Go-map lookup semantics; reachable states have pairwise distinct keys.
* Recursions that Go runs on the heap (`HasCycle`, `BuildPossibilityTree`) take an
  explicit fuel argument; fuel-sufficiency theorems below show the chosen fuel
  reproduces the unbounded recursion.
-/

/-- Categories model Go `reflect.Type` values: opaque identifiers compared by
equality. -/
abbrev Cat := Nat

/-- Abstraction of `t.Implements(errorInterface)` for the modelled type universe:
exactly the types with identifier at least 1000 implement the `error` interface. -/
def implementsError (t : Cat) : Bool := 1000 ≤ t

/-- Model of the Go `Resolver` struct (a wrapper around a function value).
`fid` models the identity of the wrapped function value; `isFunc` tells whether the
wrapped value is a function at all (`reflect.Kind == Func`); `ins` are the declared
input types `In(0..NumIn-1)`; `outs` are the declared output types
`Out(0..NumOut-1)`. -/
structure Resolver where
  fid : Nat
  isFunc : Bool
  ins : List Cat
  outs : List Cat
deriving DecidableEq, Repr

/-- Go `Resolver.InputTypes()`: the declared input types in order. -/
def Resolver.InputTypes (r : Resolver) : List Cat := r.ins

/-- Go `Resolver.OutputType()`: `reflect.TypeOf(r.ResolverFunc).Out(0)`.  The
`headD` default is never relevant for resolvers that passed validation, which have
exactly two outputs. -/
def Resolver.OutputType (r : Resolver) : Cat := r.outs.headD 0

/-- Outcomes of Go `Resolver.Validate()`, in source order. -/
inductive ValidateErr where
  | notAFunction
  | noInputs
  | dupInputTypes
  | wrongOutputCount
  | noErrorOutput
deriving DecidableEq, Repr

/-- Go `Resolver.Validate()`.  The Go loop that inserts input types into a set and
fails on the first repeat succeeds exactly when the input type list has no
duplicate. -/
def Resolver.Validate (r : Resolver) : Option ValidateErr :=
  if !r.isFunc then some .notAFunction
  else if r.ins.length = 0 then some .noInputs
  else if ¬ r.ins.Nodup then some .dupInputTypes
  else if r.outs.length ≠ 2 then some .wrongOutputCount
  else if !implementsError (r.outs.getD 1 0) then some .noErrorOutput
  else none

/-- Go `Resolver.MissingInputs(have)`: the required input types absent from
`avail`, in declared order. -/
def Resolver.MissingInputs (r : Resolver) (avail : List Cat) : List Cat :=
  r.ins.filter fun w => !(avail.contains w)

/-- Equality of `reflect.TypeOf(r.ResolverFunc)` and `reflect.TypeOf(s.ResolverFunc)`
for the function values the registry stores: the reflect type of a function value is
its signature and never its identity.  (For two non-function wrapped values Go would
compare their actual non-function types; such resolvers are rejected by `Validate`
and never stored.) -/
def sameFuncType (r s : Resolver) : Bool :=
  r.isFunc == s.isFunc && r.ins == s.ins && r.outs == s.outs

/-- Model of a Go `reflect.Value`: a runtime value with its type, an opaque payload
identity, and whether it is a nil value of its type. -/
structure GoValue where
  typ : Cat
  payload : Nat
  isNil : Bool
deriving DecidableEq, Repr

/-- Failures of Go `Resolver.Resolve`, in source order, carrying the data the
`fmt.Errorf` messages report. -/
inductive ResolveErr where
  | arityMismatch (want got : Nat)
  | typeMismatch (want got : Cat)
  | wrongOutCount (want got : Nat)
  | outputTypeMismatch (want got : Cat)
  | outNotError
deriving DecidableEq, Repr

/-- The positional input-type check loop of Go `Resolver.Resolve`: the first
position where the declared type and the supplied value's type differ, as the
(wanted, got) pair. -/
def findMismatch (want : List Cat) (vals : List GoValue) : Option (Cat × Cat) :=
  match want, vals with
  | [], _ => none
  | _, [] => none
  | w :: ws, v :: vs => if w ≠ v.typ then some (w, v.typ) else findMismatch ws vs

/-- Go `Resolver.Resolve(inputs...)`.  `call` models invoking the wrapped Go
function (`rVal.Call`): the list of `reflect.Value`s it returns.  On success the
result carries the produced value and the transformation's own error value (none
when that error was nil); a Go type assertion of a non-nil value to `error`
succeeds exactly when the value's type implements `error`, which was checked just
before. -/
def Resolver.Resolve (r : Resolver) (call : List GoValue → List GoValue)
    (inputs : List GoValue) : Except ResolveErr (GoValue × Option GoValue) :=
  if r.ins.length ≠ inputs.length then
    .error (.arityMismatch r.ins.length inputs.length)
  else match findMismatch r.ins inputs with
  | some (w, g) => .error (.typeMismatch w g)
  | none =>
    let outputValues := call inputs
    if outputValues.length ≠ 2 then .error (.wrongOutCount 2 outputValues.length)
    else
      let ov0 := outputValues.getD 0 ⟨0, 0, false⟩
      let ov1 := outputValues.getD 1 ⟨0, 0, false⟩
      if ov0.typ ≠ r.OutputType then .error (.outputTypeMismatch r.OutputType ov0.typ)
      else if !implementsError ov1.typ then .error .outNotError
      else if ov1.isNil then .ok (ov0, none)
      else .ok (ov0, some ov1)

/-- Model of Go `ProductionMap = map[reflect.Type][]Resolver` as an association
list; reachable registry states have pairwise distinct keys. -/
abbrev ProductionMap := List (Cat × List Resolver)

/-- Go map indexing `pm[t]` (a missing key reads as the empty slice). -/
def pmGet (pm : ProductionMap) (t : Cat) : List Resolver :=
  (List.lookup t pm).getD []

/-- Go map assignment `pm[t] = b`: replace the bucket at the first entry with key
`t`, or append a new entry. -/
def pmSet (pm : ProductionMap) (t : Cat) (b : List Resolver) : ProductionMap :=
  match pm with
  | [] => [(t, b)]
  | (k, v) :: rest => if k = t then (t, b) :: rest else (k, v) :: pmSet rest t b

/-- Go `delete(pm, t)`. -/
def pmDel (pm : ProductionMap) (t : Cat) : ProductionMap :=
  pm.filter fun e => e.1 ≠ t

/-- Go `ProductionMap.List()`: every stored resolver, iterating the keys and
reading each bucket through the map. -/
def ProductionMap.list (pm : ProductionMap) : List Resolver :=
  pm.flatMap fun e => pmGet pm e.1

/-- A pointer `&pm[t][i]` into a bucket of the registry, as Go's per-walk visited
set of `*Resolver` records it: bucket key together with the index in the bucket. -/
abbrev Ptr := Cat × Nat

/-- Dereference a bucket pointer.  The default is never relevant at valid
pointers. -/
def derefPtr (pm : ProductionMap) (p : Ptr) : Resolver :=
  (pmGet pm p.1).getD p.2 ⟨0, false, [], []⟩

/-- Total number of stored resolver entries, counted the way `IsDAG` enumerates
them. -/
def pmSize (pm : ProductionMap) : Nat :=
  (pm.map fun e => (pmGet pm e.1).length).sum

/-- Go `ProductionMap.HasCycle(r, visited)` with explicit fuel.  Sibling branches
recurse on separate copies of the visited set exactly as the Go code clones the
map per branch; in this functional rendering each recursive call simply receives
its own list. -/
def ProductionMap.HasCycle (pm : ProductionMap) (p : Ptr) (visited : List Ptr) :
    Nat → Bool
  | 0 => false
  | fuel + 1 =>
    if p ∈ visited then true
    else
      (derefPtr pm p).InputTypes.any fun t =>
        (List.range (pmGet pm t).length).any fun i =>
          ProductionMap.HasCycle pm (t, i) (p :: visited) fuel

/-- Go `ProductionMap.IsDAG()`: no walk starting from any stored resolver meets a
repeat.  The fuel `pmSize pm + 1` is proved sufficient below. -/
def ProductionMap.IsDAG (pm : ProductionMap) : Bool :=
  !(pm.any fun e =>
    (List.range (pmGet pm e.1).length).any fun i =>
      ProductionMap.HasCycle pm (e.1, i) [] (pmSize pm + 1))

/-- Failures of Go `ProductionMap.Add`, in source order. -/
inductive AddError where
  | invalidProducer (e : ValidateErr)
  | duplicateProducer
  | cyclicDependency
deriving DecidableEq, Repr

/-- Go `ProductionMap.Add(r)`: validate, reject a duplicate (same output bucket,
same `reflect.TypeOf` of the wrapped function), tentatively insert, and roll the
insertion back when the registry stops being a DAG.  Returns the error (none on
success) together with the state of the map after the call. -/
def ProductionMap.Add (pm : ProductionMap) (r : Resolver) :
    Option AddError × ProductionMap :=
  match r.Validate with
  | some e => (some (.invalidProducer e), pm)
  | none =>
    let outputType := r.OutputType
    if (pmGet pm outputType).any fun s => sameFuncType r s then
      (some .duplicateProducer, pm)
    else
      let pm1 := pmSet pm outputType (pmGet pm outputType ++ [r])
      if pm1.IsDAG then (none, pm1)
      else
        let pm2 := pmSet pm1 outputType (pmGet pm1 outputType).dropLast
        if (pmGet pm2 outputType).length = 0 then
          (some .cyclicDependency, pmDel pm2 outputType)
        else
          (some .cyclicDependency, pm2)

/-- Model of the Go `PossibilityNode` struct: the resolver applied to reach this
node (`nil` at the root), the available categories before that application, and
the child nodes. -/
inductive PossibilityNode where
  | mk (resolver : Option Resolver) (inputs : List Cat) (nextSteps : List PossibilityNode)
deriving Repr

/-- The resolver applied at this node (`nil` at a root). -/
def PossibilityNode.resolver : PossibilityNode → Option Resolver
  | .mk r _ _ => r

/-- The `Inputs` field of the node. -/
def PossibilityNode.inputs : PossibilityNode → List Cat
  | .mk _ i _ => i

/-- The `NextSteps` field of the node. -/
def PossibilityNode.nextSteps : PossibilityNode → List PossibilityNode
  | .mk _ _ s => s

mutual

/-- Decidable structural equality of nodes. -/
def PossibilityNode.decEq : (a b : PossibilityNode) → Decidable (a = b)
  | .mk r i s, .mk r' i' s' =>
    if h1 : r = r' then
      if h2 : i = i' then
        match decEqNodeList s s' with
        | isTrue h3 => isTrue (by rw [h1, h2, h3])
        | isFalse h3 => isFalse (by intro hh; injection hh; contradiction)
      else isFalse (by intro hh; injection hh; contradiction)
    else isFalse (by intro hh; injection hh; contradiction)

/-- Decidable structural equality of node lists. -/
def decEqNodeList : (a b : List PossibilityNode) → Decidable (a = b)
  | [], [] => isTrue rfl
  | [], _ :: _ => isFalse (by simp)
  | _ :: _, [] => isFalse (by simp)
  | a :: as, b :: bs =>
    match PossibilityNode.decEq a b, decEqNodeList as bs with
    | isTrue h1, isTrue h2 => isTrue (by rw [h1, h2])
    | isFalse h1, _ => isFalse (by intro hh; injection hh; contradiction)
    | _, isFalse h2 => isFalse (by intro hh; injection hh; contradiction)

end

instance : DecidableEq PossibilityNode := PossibilityNode.decEq

mutual

/-- Go `PossibilityNode.Count()`: one for the node plus the counts of the
children. -/
def PossibilityNode.Count : PossibilityNode → Nat
  | .mk _ _ steps => 1 + countList steps

/-- Sum of the counts of a list of nodes. -/
def countList : List PossibilityNode → Nat
  | [] => 0
  | n :: ns => PossibilityNode.Count n + countList ns

end

mutual

/-- Go `PossibilityNode.PruneFor(output)`.  `none` models the
branch-could-not-derive error, in which case the Go caller drops the node; `some`
returns the node as the mutation left it. -/
def PossibilityNode.PruneFor (t : Cat) : PossibilityNode → Option PossibilityNode
  | .mk r ins steps =>
    if Option.any (fun rr => rr.OutputType == t) r then
      some (.mk r ins [])
    else
      match pruneList t steps with
      | [] => none
      | q :: qs => some (.mk r ins (q :: qs))

/-- The loop of `PruneFor` over `NextSteps`: the surviving pruned children, in
order. -/
def pruneList (t : Cat) : List PossibilityNode → List PossibilityNode
  | [] => []
  | n :: ns =>
    match PossibilityNode.PruneFor t n with
    | none => pruneList t ns
    | some q => q :: pruneList t ns

end

mutual

/-- Whether some node of the subtree (the node itself included) applies a
resolver whose output type is `t`. -/
def PossibilityNode.hasTarget (t : Cat) : PossibilityNode → Bool
  | .mk r _ steps =>
    Option.any (fun rr => rr.OutputType == t) r || listHasTarget t steps

/-- Whether some node of some subtree in the list has a resolver with output
`t`. -/
def listHasTarget (t : Cat) : List PossibilityNode → Bool
  | [] => false
  | n :: ns => PossibilityNode.hasTarget t n || listHasTarget t ns

end

mutual

/-- Whether every node of the subtree satisfies the predicate. -/
def PossibilityNode.allNodes (p : PossibilityNode → Bool) : PossibilityNode → Bool
  | .mk r ins steps => p (.mk r ins steps) && listAllNodes p steps

/-- Whether every node of every subtree in the list satisfies the predicate. -/
def listAllNodes (p : PossibilityNode → Bool) : List PossibilityNode → Bool
  | [] => true
  | n :: ns => PossibilityNode.allNodes p n && listAllNodes p ns

end

mutual

/-- Whether every leaf of the subtree applies a resolver with output type `t`. -/
def PossibilityNode.leavesMatch (t : Cat) : PossibilityNode → Bool
  | .mk r _ [] => Option.any (fun rr => rr.OutputType == t) r
  | .mk _ _ (n :: ns) => listLeavesMatch t (n :: ns)

/-- Whether every leaf of every subtree in the list applies a resolver with
output type `t`. -/
def listLeavesMatch (t : Cat) : List PossibilityNode → Bool
  | [] => true
  | n :: ns => PossibilityNode.leavesMatch t n && listLeavesMatch t ns

end

mutual

/-- Length in edges of the longest root-to-leaf path of the subtree (the number
of resolver applications along the deepest chain). -/
def PossibilityNode.height : PossibilityNode → Nat
  | .mk _ _ steps => heightList steps

/-- One more than the largest height of a node in the list (zero for the empty
list). -/
def heightList : List PossibilityNode → Nat
  | [] => 0
  | n :: ns => max (PossibilityNode.height n + 1) (heightList ns)

end

/-- Go `ProductionMap.BuildPossibilityTree(root, inputs...)` with explicit fuel:
the list of child nodes hung onto `root`.  For every registered resolver whose
output type is not yet among `inputs` and whose `MissingInputs(inputs)` is empty,
a node is created whose `Inputs` is (a copy of) `inputs` and whose children are
built from `inputs` extended with the resolver's output type. -/
def ProductionMap.BuildPossibilityTree (pm : ProductionMap) (inputs : List Cat) :
    Nat → List PossibilityNode
  | 0 => []
  | fuel + 1 =>
    (ProductionMap.list pm).filterMap fun r =>
      if r.OutputType ∈ inputs then none
      else if r.MissingInputs inputs ≠ [] then none
      else some (PossibilityNode.mk (some r) inputs
        (ProductionMap.BuildPossibilityTree pm (inputs ++ [r.OutputType]) fuel))

/-- The distinct output categories of the registered resolvers. -/
def ProductionMap.outCats (pm : ProductionMap) : Finset Cat :=
  ((ProductionMap.list pm).map Resolver.OutputType).toFinset

/-- Fuel that suffices for `BuildPossibilityTree` starting from `inputs`: the
number of distinct registered output categories not yet available. -/
def ProductionMap.buildFuel (pm : ProductionMap) (inputs : List Cat) : Nat :=
  (ProductionMap.outCats pm \ inputs.toFinset).card

/-- The children the tree builder hangs onto a node whose available category set
is `inputs`, with the canonical (sufficient) fuel. -/
def ProductionMap.Steps (pm : ProductionMap) (inputs : List Cat) : List PossibilityNode :=
  ProductionMap.BuildPossibilityTree pm inputs (ProductionMap.buildFuel pm inputs)

/-- Go `ProductionMap.PossibilityTree(inputs...)`: a fresh root (`nil` resolver,
`nil` inputs) with the built children. -/
def ProductionMap.PossibilityTree (pm : ProductionMap) (inputs : List Cat) :
    PossibilityNode :=
  .mk none [] (ProductionMap.Steps pm inputs)

/-- The invariant every registry reachable through `Add` satisfies: Go-map keys
are pairwise distinct, no bucket is empty, and each bucket holds only resolvers
whose output type is the bucket's key. -/
def ProductionMap.WF (pm : ProductionMap) : Bool :=
  decide ((pm.map Prod.fst).Nodup) &&
    pm.all fun e => !e.2.isEmpty && e.2.all fun r => r.OutputType == e.1

/-- Two registry values hold the same producers under every category (the same
final registry contents, independently of insertion history).  Checking the keys
of both suffices: any other category has an empty bucket in both. -/
def sameRegistry (pm1 pm2 : ProductionMap) : Bool :=
  ((pm1.map Prod.fst) ++ (pm2.map Prod.fst)).all fun t =>
    decide ((pmGet pm1 t).Perm (pmGet pm2 t))

/-- The Boulder→Stone producer of the documented scenario (Boulder = 1,
Tree = 2, Stone = 3, Stick = 4, Axe = 5, Hammer = 6; 1001 is an
error-implementing type). -/
def chiselStone : Resolver := ⟨1, true, [1], [3, 1001]⟩

/-- The Tree→Stick producer of the documented scenario. -/
def pickupStick : Resolver := ⟨2, true, [2], [4, 1001]⟩

/-- The (Stick, Stone)→Axe producer of the documented scenario. -/
def assembleAxe : Resolver := ⟨3, true, [4, 3], [5, 1001]⟩

/-- The (Stone, Stick)→Hammer producer of the documented scenario. -/
def assembleHammer : Resolver := ⟨4, true, [3, 4], [6, 1001]⟩

/-- Registry holding `chiselStone`. -/
def pmA : ProductionMap := (ProductionMap.Add [] chiselStone).2

/-- Registry holding `chiselStone` and `pickupStick`. -/
def pmB : ProductionMap := (ProductionMap.Add pmA pickupStick).2

/-- Registry holding `chiselStone`, `pickupStick` and `assembleAxe`. -/
def pmC : ProductionMap := (ProductionMap.Add pmB assembleAxe).2

/-- Registry holding all four scenario producers. -/
def pmD : ProductionMap := (ProductionMap.Add pmC assembleHammer).2

/-- The scenario registry of `pmB` built by registering the two producers in the
opposite order. -/
def pmB' : ProductionMap :=
  (ProductionMap.Add (ProductionMap.Add [] pickupStick).2 chiselStone).2

/-- A producer requiring its own output category (a self-cycle). -/
def selfCyc : Resolver := ⟨9, true, [7], [7, 1001]⟩

/-- Two distinct producers (distinct function identities) with identical
signatures: same single input category 30 and same output category 40. -/
def dupSigA : Resolver := ⟨20, true, [30], [40, 1001]⟩

/-- See `dupSigA`: same signature, different function identity. -/
def dupSigB : Resolver := ⟨21, true, [30], [40, 1001]⟩

/-- Diamond producer 50→51. -/
def diaAB : Resolver := ⟨30, true, [50], [51, 1001]⟩

/-- Diamond producer 50→52. -/
def diaAC : Resolver := ⟨31, true, [50], [52, 1001]⟩

/-- Diamond producer (51, 52)→53: both walks from it reach the producers for 51
and 52 and then 50's producers, meeting again without any cycle. -/
def diaBCD : Resolver := ⟨32, true, [51, 52], [53, 1001]⟩

/-- The diamond registry: two independent paths from `diaBCD` meet again at
category 50. -/
def pmDia : ProductionMap :=
  (ProductionMap.Add ((ProductionMap.Add ((ProductionMap.Add [] diaAB).2) diaAC).2) diaBCD).2

/-- A producer 60→61 whose input is never available in the `pmShallow`
experiment. -/
def prodSixty : Resolver := ⟨40, true, [60], [61, 1001]⟩

/-- Registry holding only `prodSixty`. -/
def pmShallow : ProductionMap := (ProductionMap.Add [] prodSixty).2

/-- One step of the dependency walk `HasCycle` performs on stored resolver
entries: from the entry at `p`, the walk may move to any entry registered under
one of `p`'s required input types. -/
def ptrStep (pm : ProductionMap) (p q : Ptr) : Prop :=
  q.1 ∈ (derefPtr pm p).InputTypes ∧ q.2 < (pmGet pm q.1).length

/-- A pointer denotes an actual stored entry. -/
def validPtr (pm : ProductionMap) (p : Ptr) : Prop :=
  p.2 < (pmGet pm p.1).length

/-- The finite set of all valid entry pointers of a registry. -/
def ptrsF (pm : ProductionMap) : Finset Ptr :=
  (pm.map Prod.fst).toFinset.biUnion fun t =>
    (Finset.range (pmGet pm t).length).image fun i => (t, i)

/-- The dependency edges of the specification: from each required input
category of a registered producer to that producer's output category. -/
def catEdge (pm : ProductionMap) (a b : Cat) : Prop :=
  ∃ r, r ∈ ProductionMap.list pm ∧ a ∈ r.InputTypes ∧ r.OutputType = b

/-- Acyclicity of the category dependency graph: no category reaches itself
through one or more edges. -/
def CatAcyclic (pm : ProductionMap) : Prop :=
  ∀ c, ¬ Relation.TransGen (catEdge pm) c c

/-- The tree of the three-producer scenario from Boulder, Tree, pruned for
Axe (5): both branches survive, each ending in the Axe application. -/
def prunedAxeTree : PossibilityNode :=
  .mk none []
    [.mk (some chiselStone) [1, 2]
      [.mk (some pickupStick) [1, 2, 3]
        [.mk (some assembleAxe) [1, 2, 3, 4] []]],
     .mk (some pickupStick) [1, 2]
      [.mk (some chiselStone) [1, 2, 4]
        [.mk (some assembleAxe) [1, 2, 4, 3] []]]]

/-- Structural induction for `PossibilityNode`, threading the induction
hypothesis through the child list. -/
theorem PossibilityNode.strongInd (P : PossibilityNode → Prop)
    (h : ∀ r ins steps, (∀ c ∈ steps, P c) → P (.mk r ins steps)) : ∀ pn, P pn := by
  have key : ∀ n pn, sizeOf pn ≤ n → P pn := by
    intro n
    induction n with
    | zero => intro pn hle; cases pn with | mk r ins steps => simp at hle
    | succ n ih =>
      intro pn hle
      cases pn with
      | mk r ins steps =>
        apply h
        intro c hc
        apply ih
        have h1 := List.sizeOf_lt_of_mem hc
        have h2 : sizeOf (PossibilityNode.mk r ins steps) =
            1 + sizeOf r + sizeOf ins + sizeOf steps := by simp
        omega
  intro pn; exact key (sizeOf pn) pn le_rfl

/-- A successful `List.lookup` exhibits a stored entry. -/
theorem lookup_mem {pm : ProductionMap} {t : Cat} {b : List Resolver}
    (h : List.lookup t pm = some b) : (t, b) ∈ pm := by
  induction pm with
  | nil => simp [List.lookup] at h
  | cons e rest ih =>
    rw [List.lookup] at h
    rcases e with ⟨k, v⟩
    by_cases hk : t = k
    · subst hk
      simp at h
      simp [h]
    · have : (t == k) = false := by simp [hk]
      rw [this] at h
      simp
      right
      exact ih h

/-- `List.lookup` fails exactly off the key list. -/
theorem lookup_none_iff {pm : ProductionMap} {t : Cat} :
    List.lookup t pm = none ↔ t ∉ pm.map Prod.fst := by
  induction pm with
  | nil => simp [List.lookup]
  | cons e rest ih =>
    rcases e with ⟨k, v⟩
    rw [List.lookup]
    by_cases hk : t = k
    · subst hk; simp
    · have hb : (t == k) = false := by simp [hk]
      rw [hb]
      simp [hk, ih]

/-- With pairwise distinct keys, membership determines the lookup. -/
theorem lookup_of_mem_nodup {pm : ProductionMap} {t : Cat} {b : List Resolver}
    (hmem : (t, b) ∈ pm) (hnd : (pm.map Prod.fst).Nodup) :
    List.lookup t pm = some b := by
  induction pm with
  | nil => simp at hmem
  | cons e rest ih =>
    rcases e with ⟨k, v⟩
    simp at hmem
    rw [List.lookup]
    rcases hmem with ⟨hk, hv⟩ | hmem
    · subst hk; subst hv; simp
    · have hnd' : (∀ x, (k, x) ∉ rest) ∧ (rest.map Prod.fst).Nodup := by simpa using hnd
      have hk : t ≠ k := by
        rintro rfl
        exact hnd'.1 b hmem
      have hb : (t == k) = false := by simp [hk]
      rw [hb]
      exact ih hmem hnd'.2

/-- Reading back the bucket just written. -/
theorem pmGet_pmSet_self (pm : ProductionMap) (t : Cat) (b : List Resolver) :
    pmGet (pmSet pm t b) t = b := by
  induction pm with
  | nil => simp [pmSet, pmGet, List.lookup]
  | cons e rest ih =>
    rcases e with ⟨k, v⟩
    rw [pmSet]
    by_cases hk : k = t
    · subst hk
      simp [pmGet, List.lookup]
    · have hk' : (t == k) = false := by simp [Ne.symm hk]
      simp only [if_neg hk]
      rw [pmGet, List.lookup, hk']
      exact ih

/-- Writing one bucket does not change any other. -/
theorem pmGet_pmSet_ne (pm : ProductionMap) (t s : Cat) (b : List Resolver)
    (h : s ≠ t) : pmGet (pmSet pm t b) s = pmGet pm s := by
  induction pm with
  | nil =>
    have : (s == t) = false := by simp [h]
    simp [pmSet, pmGet, List.lookup, this]
  | cons e rest ih =>
    rcases e with ⟨k, v⟩
    rw [pmSet]
    by_cases hk : k = t
    · subst hk
      have : (s == k) = false := by simp [h]
      simp [pmGet, List.lookup, this]
    · simp only [if_neg hk]
      by_cases hs : s = k
      · subst hs
        simp [pmGet, List.lookup]
      · have : (s == k) = false := by simp [hs]
        rw [pmGet, List.lookup, this, pmGet, List.lookup, this]
        exact ih

/-- Overwriting a bucket twice keeps only the second write. -/
theorem pmSet_pmSet (pm : ProductionMap) (t : Cat) (b b' : List Resolver) :
    pmSet (pmSet pm t b) t b' = pmSet pm t b' := by
  induction pm with
  | nil => simp [pmSet]
  | cons e rest ih =>
    rcases e with ⟨k, v⟩
    rw [pmSet]
    by_cases hk : k = t
    · subst hk
      simp [pmSet]
    · simp only [if_neg hk]
      rw [pmSet, if_neg hk, pmSet, if_neg hk, ih]

/-- Writing back the value a key already holds is the identity. -/
theorem pmSet_lookup_self {pm : ProductionMap} {t : Cat} {b : List Resolver}
    (h : List.lookup t pm = some b) : pmSet pm t b = pm := by
  induction pm with
  | nil => simp [List.lookup] at h
  | cons e rest ih =>
    rcases e with ⟨k, v⟩
    rw [List.lookup] at h
    rw [pmSet]
    by_cases hk : k = t
    · subst hk
      simp at h
      simp [h]
    · have hb : (t == k) = false := by simp [Ne.symm hk]
      rw [hb] at h
      rw [if_neg hk, ih h]

/-- Writing to an absent key appends the entry. -/
theorem pmSet_not_mem {pm : ProductionMap} {t : Cat} (b : List Resolver)
    (h : List.lookup t pm = none) : pmSet pm t b = pm ++ [(t, b)] := by
  induction pm with
  | nil => simp [pmSet]
  | cons e rest ih =>
    rcases e with ⟨k, v⟩
    rw [List.lookup] at h
    rw [pmSet]
    by_cases hk : k = t
    · subst hk
      simp at h
    · have hb : (t == k) = false := by simp [Ne.symm hk]
      rw [hb] at h
      rw [if_neg hk, ih h]
      simp

/-- Deleting an absent key is the identity. -/
theorem pmDel_not_mem {pm : ProductionMap} {t : Cat}
    (h : List.lookup t pm = none) : pmDel pm t = pm := by
  rw [lookup_none_iff] at h
  rw [pmDel]
  apply List.filter_eq_self.2
  intro e he
  simp
  rintro rfl
  exact h (List.mem_map_of_mem Prod.fst he)

/-- Claim C3: insertion is atomic.  Whenever `Add` fails — for an invalid
producer, a duplicate, or an introduced cycle — the registry after the call is
exactly the registry before it; in the cycle case the just-inserted entry is
removed again and, if its bucket became empty, the bucket's key is deleted. -/
theorem add_failure_leaves_registry {pm : ProductionMap} {r : Resolver}
    (hwf : ProductionMap.WF pm = true)
    (herr : (ProductionMap.Add pm r).1 ≠ none) :
    (ProductionMap.Add pm r).2 = pm := by
  rw [ProductionMap.Add] at herr ⊢
  cases hv : r.Validate with
  | some e => simp [hv]
  | none =>
    simp only [hv] at herr ⊢
    by_cases hdup : (pmGet pm r.OutputType).any (fun s => sameFuncType r s) = true
    · simp [hdup]
    · simp only [Bool.not_eq_true] at hdup
      simp only [hdup, Bool.false_eq_true, if_false] at herr ⊢
      by_cases hdag :
          (pmSet pm r.OutputType (pmGet pm r.OutputType ++ [r])).IsDAG = true
      · simp [hdag] at herr
      · simp only [Bool.not_eq_true] at hdag
        simp only [hdag, Bool.false_eq_true, if_false]
        simp only [pmGet_pmSet_self, List.dropLast_concat, pmSet_pmSet]
        cases hout : List.lookup r.OutputType pm with
        | none =>
          have hget : pmGet pm r.OutputType = [] := by rw [pmGet, hout]; rfl
          rw [hget]
          simp only [List.length_nil, if_pos rfl]
          rw [pmSet_not_mem [] hout]
          rw [pmDel, List.filter_append]
          have h1 : List.filter (fun e => decide (e.1 ≠ r.OutputType)) pm = pm := by
            apply List.filter_eq_self.2
            intro e he
            simp
            intro h3
            apply lookup_none_iff.1 hout
            rw [← h3]
            exact List.mem_map_of_mem Prod.fst he
          have h2 : List.filter (fun e => decide (e.1 ≠ r.OutputType))
              [(r.OutputType, ([] : List Resolver))] = [] := by simp
          rw [h1, h2, List.append_nil]
          simp
        | some b =>
          have hget : pmGet pm r.OutputType = b := by rw [pmGet, hout]; rfl
          have hbne : b ≠ [] := by
            have hmem := lookup_mem hout
            rw [ProductionMap.WF] at hwf
            simp only [Bool.and_eq_true, List.all_eq_true] at hwf
            have := hwf.2 _ hmem
            simp only [Bool.and_eq_true] at this
            intro hb
            rw [hb] at this
            simp at this
          rw [hget, pmSet_lookup_self hout]
          have hlen : ¬ b.length = 0 := by
            intro h0
            exact hbne (List.eq_nil_of_length_eq_zero h0)
          simp [hlen]

/-- Concrete run of `add_failure_leaves_registry`: inserting the self-cyclic
producer into the two-producer scenario registry is rejected and leaves the
registry exactly as it was. -/
theorem add_failure_leaves_registry_witness :
    ProductionMap.WF pmB = true ∧ (ProductionMap.Add pmB selfCyc).1 ≠ none ∧
      (ProductionMap.Add pmB selfCyc).2 = pmB :=
  ⟨by decide, by decide, add_failure_leaves_registry (by decide) (by decide)⟩

/-- Claim C1, counterexample: two producers with the same output category (40)
whose underlying transformations are distinct function values (`fid` 20 and 21)
are nevertheless rejected as duplicates, because `Add` compares
`reflect.TypeOf` — the function signature — and both have the signature
30 → (40, error). -/
theorem distinct_identity_rejected_as_duplicate :
    dupSigA.fid ≠ dupSigB.fid ∧
      (ProductionMap.Add [] dupSigA).1 = none ∧
      dupSigA.OutputType = dupSigB.OutputType ∧
      (ProductionMap.Add (ProductionMap.Add [] dupSigA).2 dupSigB).1 =
        some AddError.duplicateProducer := by
  decide

/-- Claim C1, amended: registration rejects a producer as a duplicate exactly
when an already-registered producer under the same output category has the same
reflect function type (same signature), regardless of function identity. -/
theorem duplicate_rejection_is_by_func_type {pm : ProductionMap} {r : Resolver}
    (hv : r.Validate = none) :
    (ProductionMap.Add pm r).1 = some AddError.duplicateProducer ↔
      (pmGet pm r.OutputType).any (fun s => sameFuncType r s) = true := by
  rw [ProductionMap.Add, hv]
  by_cases hdup : (pmGet pm r.OutputType).any (fun s => sameFuncType r s) = true
  · simp [hdup]
  · simp only [Bool.not_eq_true] at hdup
    simp only [hdup, Bool.false_eq_true, if_false]
    constructor
    · intro h
      by_cases hdag :
          (pmSet pm r.OutputType (pmGet pm r.OutputType ++ [r])).IsDAG = true
      · simp [hdag] at h
      · simp only [Bool.not_eq_true] at hdag
        simp only [hdag, Bool.false_eq_true, if_false] at h
        by_cases hlen :
            (pmGet (pmSet (pmSet pm r.OutputType (pmGet pm r.OutputType ++ [r]))
              r.OutputType
              (pmGet (pmSet pm r.OutputType (pmGet pm r.OutputType ++ [r]))
                r.OutputType).dropLast) r.OutputType).length = 0
        · simp [hlen] at h
        · simp [hlen] at h
    · exact fun h => h.elim

/-- Concrete run of `duplicate_rejection_is_by_func_type` on the second
same-signature producer against the registry already holding the first. -/
theorem duplicate_rejection_is_by_func_type_witness :
    dupSigB.Validate = none ∧
      ((ProductionMap.Add (ProductionMap.Add [] dupSigA).2 dupSigB).1 =
          some AddError.duplicateProducer ↔
        (pmGet (ProductionMap.Add [] dupSigA).2 dupSigB.OutputType).any
          (fun s => sameFuncType dupSigB s) = true) :=
  ⟨by decide, duplicate_rejection_is_by_func_type (by decide)⟩

/-- A registered resolver's output type is among the registry's output
categories. -/
theorem mem_outCats {pm : ProductionMap} {r : Resolver}
    (h : r ∈ ProductionMap.list pm) :
    r.OutputType ∈ ProductionMap.outCats pm := by
  rw [ProductionMap.outCats, List.mem_toFinset]
  exact List.mem_map_of_mem Resolver.OutputType h

/-- If some registered resolver's output is still missing, the build fuel is
positive. -/
theorem one_le_buildFuel {pm : ProductionMap} {S : List Cat} {r : Resolver}
    (hr : r ∈ ProductionMap.list pm) (hout : r.OutputType ∉ S) :
    1 ≤ ProductionMap.buildFuel pm S := by
  rw [ProductionMap.buildFuel]
  apply Finset.card_pos.2
  exact ⟨r.OutputType, Finset.mem_sdiff.2 ⟨mem_outCats hr, by simpa using hout⟩⟩

/-- Adding a missing output category to the available set shrinks the build fuel
by exactly one. -/
theorem buildFuel_append {pm : ProductionMap} {S : List Cat} {r : Resolver}
    (hr : r ∈ ProductionMap.list pm) (hout : r.OutputType ∉ S) :
    ProductionMap.buildFuel pm (S ++ [r.OutputType]) =
      ProductionMap.buildFuel pm S - 1 := by
  rw [ProductionMap.buildFuel, ProductionMap.buildFuel]
  have h1 : (S ++ [r.OutputType]).toFinset = insert r.OutputType S.toFinset := by
    rw [List.toFinset_append]
    ext x
    simp [or_comm]
  rw [h1, Finset.sdiff_insert]
  rw [Finset.card_erase_of_mem
    (Finset.mem_sdiff.2 ⟨mem_outCats hr, by simpa using hout⟩)]

/-- With zero build fuel there is nothing to build at any actual fuel: no
registered resolver passes the guards. -/
theorem build_eq_nil_of_fuel_zero {pm : ProductionMap} {S : List Cat}
    (h0 : ProductionMap.buildFuel pm S = 0) (f : Nat) :
    ProductionMap.BuildPossibilityTree pm S f = [] := by
  cases f with
  | zero => rfl
  | succ f =>
    rw [ProductionMap.BuildPossibilityTree]
    apply List.filterMap_eq_nil_iff.2
    intro r hr
    by_cases hmem : r.OutputType ∈ S
    · simp [hmem]
    · exact absurd h0 (by have := one_le_buildFuel hr hmem; omega)

/-- Any fuel at least the canonical `buildFuel` produces the same children
list. -/
theorem build_fuel_stable {pm : ProductionMap} :
    ∀ n (S : List Cat) f g, ProductionMap.buildFuel pm S ≤ n →
      ProductionMap.buildFuel pm S ≤ f → ProductionMap.buildFuel pm S ≤ g →
      ProductionMap.BuildPossibilityTree pm S f =
        ProductionMap.BuildPossibilityTree pm S g := by
  intro n
  induction n with
  | zero =>
    intro S f g hn _ _
    have h0 : ProductionMap.buildFuel pm S = 0 := Nat.le_zero.1 hn
    rw [build_eq_nil_of_fuel_zero h0, build_eq_nil_of_fuel_zero h0]
  | succ n ih =>
    intro S f g hn hf hg
    by_cases h0 : ProductionMap.buildFuel pm S = 0
    · rw [build_eq_nil_of_fuel_zero h0, build_eq_nil_of_fuel_zero h0]
    · have h1 : 1 ≤ ProductionMap.buildFuel pm S := Nat.one_le_iff_ne_zero.2 h0
      cases f with
      | zero => omega
      | succ f =>
        cases g with
        | zero => omega
        | succ g =>
          rw [ProductionMap.BuildPossibilityTree, ProductionMap.BuildPossibilityTree]
          apply List.filterMap_congr
          intro r hr
          by_cases hmem : r.OutputType ∈ S
          · simp only [if_pos hmem]
          · simp only [if_neg hmem]
            by_cases hmi : r.MissingInputs S ≠ []
            · simp only [if_pos hmi]
            · simp only [if_neg hmi]
              have hfe := buildFuel_append hr hmem
              have hch : ProductionMap.BuildPossibilityTree pm (S ++ [r.OutputType]) f =
                  ProductionMap.BuildPossibilityTree pm (S ++ [r.OutputType]) g := by
                apply ih <;> rw [hfe] <;> omega
              rw [hch]

/-- Any sufficient fuel reproduces the canonical children list `Steps`:
possibility-tree construction terminates with this value. -/
theorem build_eq_Steps {pm : ProductionMap} {S : List Cat} {f : Nat}
    (hf : ProductionMap.buildFuel pm S ≤ f) :
    ProductionMap.BuildPossibilityTree pm S f = ProductionMap.Steps pm S := by
  rw [ProductionMap.Steps]
  exact build_fuel_stable (ProductionMap.buildFuel pm S) S f _ le_rfl hf le_rfl

/-- Fuel-free unfolding of the canonical children list: exactly the registered
resolvers whose output is new and whose inputs are all available become
children, each carrying the parent's available set and the children built from
the grown set. -/
theorem Steps_unfold (pm : ProductionMap) (S : List Cat) :
    ProductionMap.Steps pm S = (ProductionMap.list pm).filterMap fun r =>
      if r.OutputType ∈ S then none
      else if r.MissingInputs S ≠ [] then none
      else some (PossibilityNode.mk (some r) S
        (ProductionMap.Steps pm (S ++ [r.OutputType]))) := by
  by_cases h0 : ProductionMap.buildFuel pm S = 0
  · rw [ProductionMap.Steps, build_eq_nil_of_fuel_zero h0]
    symm
    apply List.filterMap_eq_nil_iff.2
    intro r hr
    by_cases hmem : r.OutputType ∈ S
    · simp [hmem]
    · exact absurd h0 (by have := one_le_buildFuel hr hmem; omega)
  · obtain ⟨k, hk⟩ : ∃ k, ProductionMap.buildFuel pm S = k + 1 :=
      ⟨ProductionMap.buildFuel pm S - 1, by omega⟩
    rw [ProductionMap.Steps, hk, ProductionMap.BuildPossibilityTree]
    apply List.filterMap_congr
    intro r hr
    by_cases hmem : r.OutputType ∈ S
    · simp only [if_pos hmem]
    · simp only [if_neg hmem]
      by_cases hmi : r.MissingInputs S ≠ []
      · simp only [if_pos hmi]
      · simp only [if_neg hmi]
        have hfe := buildFuel_append hr hmem
        rw [build_eq_Steps (by rw [hfe, hk]; omega)]

/-- The list count is the sum of the member counts. -/
theorem countList_eq (L : List PossibilityNode) :
    countList L = (L.map PossibilityNode.Count).sum := by
  induction L with
  | nil => rfl
  | cons a as ih => rw [countList, ih]; simp

/-- The list target test is the `any` of the member target tests. -/
theorem listHasTarget_eq (t : Cat) (L : List PossibilityNode) :
    listHasTarget t L = L.any (PossibilityNode.hasTarget t) := by
  induction L with
  | nil => rfl
  | cons a as ih => rw [listHasTarget, ih]; simp

/-- The list all-nodes test is the `all` of the member tests. -/
theorem listAllNodes_eq (p : PossibilityNode → Bool) (L : List PossibilityNode) :
    listAllNodes p L = L.all (PossibilityNode.allNodes p) := by
  induction L with
  | nil => rfl
  | cons a as ih => rw [listAllNodes, ih]; simp

/-- The list leaf test is the `all` of the member leaf tests. -/
theorem listLeavesMatch_eq (t : Cat) (L : List PossibilityNode) :
    listLeavesMatch t L = L.all (PossibilityNode.leavesMatch t) := by
  induction L with
  | nil => rfl
  | cons a as ih => rw [listLeavesMatch, ih]; simp

/-- Pruning a child list keeps exactly the successfully pruned children. -/
theorem pruneList_eq (t : Cat) (L : List PossibilityNode) :
    pruneList t L = L.filterMap (PossibilityNode.PruneFor t) := by
  induction L with
  | nil => rfl
  | cons a as ih =>
    rw [pruneList, List.filterMap_cons]
    cases PossibilityNode.PruneFor t a with
    | none => exact ih
    | some q => rw [ih]

/-- Claim C4: for a node of the possibility tree whose available category set is
`S`, the builder creates a child for a registered producer exactly when the
producer's output category is not in `S` and its `MissingInputs(S)` is empty;
each such child records `S` and its own children are built from `S` plus the
producer's output category.  (The root's children are the `Steps` from the
starting set, and every node's children are the `Steps` from its set, so the
statement covers every node of the tree.) -/
theorem builder_children_characterization (pm : ProductionMap) (S : List Cat) :
    (ProductionMap.PossibilityTree pm S).nextSteps = ProductionMap.Steps pm S ∧
    (∀ r : Resolver,
      (∃ c ∈ ProductionMap.Steps pm S, c.resolver = some r) ↔
        (r ∈ ProductionMap.list pm ∧ r.OutputType ∉ S ∧ r.MissingInputs S = [])) ∧
    (∀ c ∈ ProductionMap.Steps pm S, ∃ r : Resolver, c.resolver = some r ∧
      c.inputs = S ∧ c.nextSteps = ProductionMap.Steps pm (S ++ [r.OutputType])) := by
  refine ⟨rfl, ?_, ?_⟩
  · intro r
    constructor
    · rintro ⟨c, hc, hres⟩
      rw [Steps_unfold, List.mem_filterMap] at hc
      obtain ⟨a, ha, hfa⟩ := hc
      by_cases hmem : a.OutputType ∈ S
      · simp [hmem] at hfa
      · by_cases hmi : a.MissingInputs S ≠ []
        · simp [hmem, hmi] at hfa
        · simp only [if_neg hmem, if_neg hmi, Option.some.injEq] at hfa
          rw [← hfa] at hres
          rw [PossibilityNode.resolver] at hres
          have har : a = r := by injection hres
          subst har
          exact ⟨ha, hmem, by simpa using hmi⟩
    · rintro ⟨hr, hmem, hmi⟩
      refine ⟨PossibilityNode.mk (some r) S
        (ProductionMap.Steps pm (S ++ [r.OutputType])), ?_, rfl⟩
      rw [Steps_unfold, List.mem_filterMap]
      exact ⟨r, hr, by simp [hmem, hmi]⟩
  · intro c hc
    rw [Steps_unfold, List.mem_filterMap] at hc
    obtain ⟨a, ha, hfa⟩ := hc
    by_cases hmem : a.OutputType ∈ S
    · simp [hmem] at hfa
    · by_cases hmi : a.MissingInputs S ≠ []
      · simp [hmem, hmi] at hfa
      · simp only [if_neg hmem, if_neg hmi, Option.some.injEq] at hfa
        exact ⟨a, by rw [← hfa]; exact ⟨rfl, rfl, rfl⟩⟩

/-- Concrete run of `builder_children_characterization` at the two-producer
scenario registry and starting set Boulder, Tree. -/
theorem builder_children_characterization_witness :
    (ProductionMap.PossibilityTree pmB [1, 2]).nextSteps =
      ProductionMap.Steps pmB [1, 2] :=
  (builder_children_characterization pmB [1, 2]).1

/-- Claim C5: in the Boulder(1)/Tree(2) scenario the four registrations all
succeed and the rebuilt possibility tree counts are 2, 5, 7 and 13. -/
theorem boulder_tree_scenario_counts :
    (ProductionMap.Add [] chiselStone).1 = none ∧
    (ProductionMap.Add pmA pickupStick).1 = none ∧
    (ProductionMap.Add pmB assembleAxe).1 = none ∧
    (ProductionMap.Add pmC assembleHammer).1 = none ∧
    (ProductionMap.PossibilityTree pmA [1, 2]).Count = 2 ∧
    (ProductionMap.PossibilityTree pmB [1, 2]).Count = 5 ∧
    (ProductionMap.PossibilityTree pmC [1, 2]).Count = 7 ∧
    (ProductionMap.PossibilityTree pmD [1, 2]).Count = 13 := by
  decide

/-- Pruning fails exactly on subtrees containing no node whose resolver output
is the target. -/
theorem pruneFor_eq_none_iff (t : Cat) :
    ∀ pn, PossibilityNode.PruneFor t pn = none ↔
      PossibilityNode.hasTarget t pn = false := by
  intro pn
  induction pn using PossibilityNode.strongInd with
  | h r ins steps ih =>
    rw [PossibilityNode.PruneFor, PossibilityNode.hasTarget]
    by_cases hown : Option.any (fun rr => Resolver.OutputType rr == t) r = true
    · simp [hown]
    · simp only [Bool.not_eq_true] at hown
      simp only [hown, if_neg, Bool.false_eq_true, if_false, Bool.false_or]
      rw [pruneList_eq]
      constructor
      · intro h
        cases hfm : List.filterMap (PossibilityNode.PruneFor t) steps with
        | nil =>
          rw [listHasTarget_eq]
          apply List.any_eq_false.2
          intro c hc
          have h2 := (ih c hc).1 (List.filterMap_eq_nil_iff.1 hfm c hc)
          simp [h2]
        | cons q qs => rw [hfm] at h; cases h
      · intro h
        rw [listHasTarget_eq] at h
        have hall := List.any_eq_false.1 h
        have : List.filterMap (PossibilityNode.PruneFor t) steps = [] :=
          List.filterMap_eq_nil_iff.2 fun c hc =>
            (ih c hc).2 (by simpa using hall c hc)
        rw [this]

/-- Every node of a subtree satisfying `allNodes p` satisfies `p` itself. -/
theorem allNodes_head {p : PossibilityNode → Bool} {pn : PossibilityNode}
    (h : PossibilityNode.allNodes p pn = true) : p pn = true := by
  cases pn with
  | mk r ins steps =>
    rw [PossibilityNode.allNodes, Bool.and_eq_true] at h
    exact h.1

/-- A successful prune keeps only target leaves, and every kept node still has a
target node in its own subtree (so it lies on a root-to-target path). -/
theorem pruneFor_some_spec (t : Cat) :
    ∀ pn q, PossibilityNode.PruneFor t pn = some q →
      PossibilityNode.leavesMatch t q = true ∧
      PossibilityNode.allNodes (fun n => PossibilityNode.hasTarget t n) q = true := by
  intro pn
  induction pn using PossibilityNode.strongInd with
  | h r ins steps ih =>
    intro q hq
    rw [PossibilityNode.PruneFor] at hq
    by_cases hown : Option.any (fun rr => Resolver.OutputType rr == t) r = true
    · rw [if_pos hown, Option.some.injEq] at hq
      subst hq
      constructor
      · rw [PossibilityNode.leavesMatch]
        exact hown
      · rw [PossibilityNode.allNodes, PossibilityNode.hasTarget]
        simp [hown, listAllNodes]
    · simp only [Bool.not_eq_true] at hown
      rw [if_neg (by simp [hown])] at hq
      cases hkept : pruneList t steps with
      | nil => rw [hkept] at hq; cases hq
      | cons k ks =>
        rw [hkept, Option.some.injEq] at hq
        subst hq
        have hmemspec : ∀ c ∈ k :: ks,
            PossibilityNode.leavesMatch t c = true ∧
            PossibilityNode.allNodes (fun n => PossibilityNode.hasTarget t n) c = true := by
          intro c hc
          rw [← hkept] at hc
          rw [pruneList_eq, List.mem_filterMap] at hc
          obtain ⟨a, ha, hpa⟩ := hc
          exact ih a ha c hpa
        constructor
        · rw [PossibilityNode.leavesMatch, listLeavesMatch_eq]
          apply List.all_eq_true.2
          intro c hc
          exact (hmemspec c hc).1
        · rw [PossibilityNode.allNodes, Bool.and_eq_true]
          constructor
          · rw [PossibilityNode.hasTarget, listHasTarget_eq, Bool.or_eq_true]
            right
            apply List.any_eq_true.2
            exact ⟨k, by simp, allNodes_head (hmemspec k (by simp)).2⟩
          · rw [listAllNodes_eq]
            apply List.all_eq_true.2
            intro c hc
            exact (hmemspec c hc).2

/-- Claim C6: pruning a built possibility tree fails exactly when no node of the
tree applies a producer with the target output category; when it succeeds, every
surviving leaf's producer output is the target and every surviving node lies on
some root-to-target path (its own subtree still contains a target node). -/
theorem pruneFor_characterization (pm : ProductionMap) (S : List Cat) (t : Cat) :
    ((ProductionMap.PossibilityTree pm S).PruneFor t = none ↔
      (ProductionMap.PossibilityTree pm S).hasTarget t = false) ∧
    (∀ q, (ProductionMap.PossibilityTree pm S).PruneFor t = some q →
      q.leavesMatch t = true ∧
      q.allNodes (fun n => PossibilityNode.hasTarget t n) = true) :=
  ⟨pruneFor_eq_none_iff t _, fun q hq => pruneFor_some_spec t _ q hq⟩

/-- Concrete run of `pruneFor_characterization`: the tree of the three-producer
scenario pruned for Axe (5) keeps only nodes on the two Axe paths, with both
leaves producing Axe. -/
theorem pruneFor_characterization_witness :
    PossibilityNode.leavesMatch 5 prunedAxeTree = true ∧
      PossibilityNode.allNodes (fun n => PossibilityNode.hasTarget 5 n)
        prunedAxeTree = true :=
  (pruneFor_characterization pmC [1, 2] 5).2 prunedAxeTree (by decide)

/-- No subtree built from an available set containing `t` ever applies a
producer with output `t`: the builder skips producers whose output is already
available, and available sets only grow. -/
theorem steps_no_target_of_mem {pm : ProductionMap} {t : Cat} :
    ∀ n S, ProductionMap.buildFuel pm S ≤ n → t ∈ S →
      listHasTarget t (ProductionMap.Steps pm S) = false := by
  intro n
  induction n with
  | zero =>
    intro S hn ht
    rw [ProductionMap.Steps, build_eq_nil_of_fuel_zero (Nat.le_zero.1 hn)]
    rfl
  | succ n ih =>
    intro S hn ht
    rw [Steps_unfold, listHasTarget_eq]
    apply List.any_eq_false.2
    intro c hc
    rw [List.mem_filterMap] at hc
    obtain ⟨a, ha, hfa⟩ := hc
    by_cases hmem : a.OutputType ∈ S
    · simp [hmem] at hfa
    · by_cases hmi : a.MissingInputs S ≠ []
      · simp [hmem, hmi] at hfa
      · simp only [if_neg hmem, if_neg hmi, Option.some.injEq] at hfa
        have hchild := ih (S ++ [a.OutputType])
          (by rw [buildFuel_append ha hmem]; omega) (by simp [ht])
        have hne : a.OutputType ≠ t := fun he => hmem (he ▸ ht)
        rw [← hfa, PossibilityNode.hasTarget]
        simp [hchild, hne, Option.any]

/-- Claim C10: when the target category is already a member of the starting
available set, pruning the built tree for it always fails with the
target-unreachable error — the builder never creates a node producing an
already-available category, so no branch can survive. -/
theorem prune_fails_when_target_already_available (pm : ProductionMap)
    {S : List Cat} {t : Cat} (ht : t ∈ S) :
    (ProductionMap.PossibilityTree pm S).PruneFor t = none := by
  apply (pruneFor_eq_none_iff t _).2
  rw [ProductionMap.PossibilityTree, PossibilityNode.hasTarget]
  have h2 := @steps_no_target_of_mem pm t
    (ProductionMap.buildFuel pm S) S le_rfl ht
  simp [h2, Option.any]

/-- Concrete run of `prune_fails_when_target_already_available`: with Axe (5)
already in the starting set, pruning the three-producer scenario tree for Axe
fails even though Axe is available from the start. -/
theorem prune_fails_when_target_already_available_witness :
    (5 : Cat) ∈ [1, 2, 5] ∧
      (ProductionMap.PossibilityTree pmC [1, 2, 5]).PruneFor 5 = none :=
  ⟨by decide, prune_fails_when_target_already_available pmC (by decide)⟩

/-- A children list whose members all have bounded height (plus the edge to
them) has bounded height. -/
theorem heightList_le {L : List PossibilityNode} {m : Nat}
    (h : ∀ c ∈ L, PossibilityNode.height c + 1 ≤ m) : heightList L ≤ m := by
  induction L with
  | nil => rw [heightList]; omega
  | cons a as iha =>
    rw [heightList]
    exact max_le (h a (by simp)) (iha fun c hc => h c (by simp [hc]))

/-- The built children of an available set `S` reach at most `buildFuel pm S`
further applications deep. -/
theorem heightList_Steps_le {pm : ProductionMap} :
    ∀ n S, ProductionMap.buildFuel pm S ≤ n →
      heightList (ProductionMap.Steps pm S) ≤ ProductionMap.buildFuel pm S := by
  intro n
  induction n with
  | zero =>
    intro S hn
    rw [ProductionMap.Steps, build_eq_nil_of_fuel_zero (Nat.le_zero.1 hn), heightList]
    omega
  | succ n ih =>
    intro S hn
    rw [Steps_unfold]
    apply heightList_le
    intro c hc
    rw [List.mem_filterMap] at hc
    obtain ⟨a, ha, hfa⟩ := hc
    by_cases hmem : a.OutputType ∈ S
    · simp [hmem] at hfa
    · by_cases hmi : a.MissingInputs S ≠ []
      · simp [hmem, hmi] at hfa
      · simp only [if_neg hmem, if_neg hmi, Option.some.injEq] at hfa
        have h1 : 1 ≤ ProductionMap.buildFuel pm S := one_le_buildFuel ha hmem
        have hf := buildFuel_append ha hmem
        have hch := ih (S ++ [a.OutputType]) (by rw [hf]; omega)
        rw [hf] at hch
        rw [← hfa, PossibilityNode.height]
        omega

/-- Claim C7, amended: possibility-tree construction terminates — any fuel at
least `buildFuel` yields the same, canonical tree — and the longest chain of
applications (the tree height) is at most the number of distinct registered
output categories (it can be strictly less). -/
theorem build_terminates_and_depth_bounded (pm : ProductionMap) (S : List Cat)
    (f : Nat) (hf : ProductionMap.buildFuel pm S ≤ f) :
    ProductionMap.BuildPossibilityTree pm S f = ProductionMap.Steps pm S ∧
      (ProductionMap.PossibilityTree pm S).height ≤
        (ProductionMap.outCats pm).card := by
  constructor
  · exact build_eq_Steps hf
  · rw [ProductionMap.PossibilityTree, PossibilityNode.height]
    have h1 := @heightList_Steps_le pm (ProductionMap.buildFuel pm S) S le_rfl
    have h2 : ProductionMap.buildFuel pm S ≤ (ProductionMap.outCats pm).card := by
      rw [ProductionMap.buildFuel]
      exact Finset.card_le_card Finset.sdiff_subset
    omega

/-- Concrete run of `build_terminates_and_depth_bounded` on the three-producer
scenario with generous fuel. -/
theorem build_terminates_and_depth_bounded_witness :
    ProductionMap.buildFuel pmC [1, 2] ≤ 5 ∧
      (ProductionMap.BuildPossibilityTree pmC [1, 2] 5 =
          ProductionMap.Steps pmC [1, 2] ∧
        (ProductionMap.PossibilityTree pmC [1, 2]).height ≤
          (ProductionMap.outCats pmC).card) :=
  ⟨by decide, build_terminates_and_depth_bounded pmC [1, 2] 5 (by decide)⟩

/-- Claim C7, counterexample to the claimed equality: with one registered
producer 60→61 and starting set containing 61 the tree is the bare root (chain
length 0), while the number of distinct registered output categories is 1. -/
theorem depth_equals_outputs_counterexample :
    (ProductionMap.PossibilityTree pmShallow [61]).height = 0 ∧
      (ProductionMap.outCats pmShallow).card = 1 := by
  decide

/-- When every earlier position matches and position `i` mismatches, the check
loop reports exactly position `i`'s (wanted, got) pair. -/
theorem findMismatch_spec_some :
    ∀ (want : List Cat) (vals : List GoValue) (i : Nat),
      i < want.length → i < vals.length →
      (∀ j, j < i → want.getD j 0 = (vals.getD j ⟨0, 0, false⟩).typ) →
      want.getD i 0 ≠ (vals.getD i ⟨0, 0, false⟩).typ →
      findMismatch want vals =
        some (want.getD i 0, (vals.getD i ⟨0, 0, false⟩).typ) := by
  intro want
  induction want with
  | nil => intro vals i hi; simp at hi
  | cons w ws ih =>
    intro vals i hi hv hpre hmis
    cases vals with
    | nil => simp at hv
    | cons v vs =>
      cases i with
      | zero =>
        simp only [List.getD_cons_zero] at hmis
        rw [findMismatch, if_pos hmis]
        simp
      | succ k =>
        have h0 := hpre 0 (Nat.succ_pos k)
        simp only [List.getD_cons_zero] at h0
        rw [findMismatch, if_neg (by rw [h0]; exact fun h => h rfl)]
        simp only [List.getD_cons_succ]
        apply ih vs k (by simpa using hi) (by simpa using hv)
        · intro j hj
          have := hpre (j + 1) (by omega)
          simpa using this
        · simpa using hmis

/-- When every position matches, the check loop finds nothing. -/
theorem findMismatch_spec_none :
    ∀ (want : List Cat) (vals : List GoValue),
      (∀ j, j < want.length → want.getD j 0 = (vals.getD j ⟨0, 0, false⟩).typ) →
      findMismatch want vals = none := by
  intro want
  induction want with
  | nil => intro vals _; rw [findMismatch]
  | cons w ws ih =>
    intro vals hall
    cases vals with
    | nil => rfl
    | cons v vs =>
      have h0 := hall 0 (by simp)
      simp only [List.getD_cons_zero] at h0
      rw [findMismatch, if_neg (by rw [h0]; exact fun h => h rfl)]
      apply ih
      intro j hj
      have := hall (j + 1) (by simpa using hj)
      simpa using this

/-- Claim C8: invoking a producer fails with the arity error when the supplied
count differs from the required count; fails with the positional type-mismatch
error at the first position whose supplied value's category differs from the
required one; fails with the output-type error when the produced value's
category differs from the declared output category; and otherwise surfaces the
transformation's own non-nil failure unchanged alongside the produced value. -/
theorem resolve_error_contract :
    (∀ (r : Resolver) (call : List GoValue → List GoValue) (inputs : List GoValue),
      r.ins.length ≠ inputs.length →
        r.Resolve call inputs = .error (.arityMismatch r.ins.length inputs.length)) ∧
    (∀ (r : Resolver) (call : List GoValue → List GoValue) (inputs : List GoValue)
        (i : Nat),
      r.ins.length = inputs.length → i < r.ins.length →
      (∀ j, j < i → r.ins.getD j 0 = (inputs.getD j ⟨0, 0, false⟩).typ) →
      r.ins.getD i 0 ≠ (inputs.getD i ⟨0, 0, false⟩).typ →
        r.Resolve call inputs = .error
          (.typeMismatch (r.ins.getD i 0) (inputs.getD i ⟨0, 0, false⟩).typ)) ∧
    (∀ (r : Resolver) (call : List GoValue → List GoValue) (inputs : List GoValue),
      r.ins.length = inputs.length →
      (∀ j, j < r.ins.length → r.ins.getD j 0 = (inputs.getD j ⟨0, 0, false⟩).typ) →
      (call inputs).length = 2 →
      ((call inputs).getD 0 ⟨0, 0, false⟩).typ ≠ r.OutputType →
        r.Resolve call inputs = .error
          (.outputTypeMismatch r.OutputType ((call inputs).getD 0 ⟨0, 0, false⟩).typ)) ∧
    (∀ (r : Resolver) (call : List GoValue → List GoValue) (inputs : List GoValue),
      r.ins.length = inputs.length →
      (∀ j, j < r.ins.length → r.ins.getD j 0 = (inputs.getD j ⟨0, 0, false⟩).typ) →
      (call inputs).length = 2 →
      ((call inputs).getD 0 ⟨0, 0, false⟩).typ = r.OutputType →
      implementsError ((call inputs).getD 1 ⟨0, 0, false⟩).typ = true →
      ((call inputs).getD 1 ⟨0, 0, false⟩).isNil = false →
        r.Resolve call inputs = .ok ((call inputs).getD 0 ⟨0, 0, false⟩,
          some ((call inputs).getD 1 ⟨0, 0, false⟩))) := by
  refine ⟨?_, ?_, ?_, ?_⟩
  · intro r call inputs hne
    rw [Resolver.Resolve, if_pos hne]
  · intro r call inputs i hlen hi hpre hmis
    rw [Resolver.Resolve, if_neg (by omega)]
    rw [findMismatch_spec_some r.ins inputs i hi (by omega) hpre hmis]
  · intro r call inputs hlen hall hclen hmis
    rw [Resolver.Resolve, if_neg (by omega)]
    rw [findMismatch_spec_none r.ins inputs hall]
    simp only [if_neg (by omega : ¬ (call inputs).length ≠ 2)]
    rw [if_pos hmis]
  · intro r call inputs hlen hall hclen hout herr hnil
    rw [Resolver.Resolve, if_neg (by omega)]
    rw [findMismatch_spec_none r.ins inputs hall]
    simp only [if_neg (by omega : ¬ (call inputs).length ≠ 2)]
    rw [if_neg (by rw [hout]; exact fun h => h rfl)]
    simp only [List.getD, List.get?_eq_getElem?] at herr hnil
    simp [herr, hnil]

/-- Concrete runs of all four branches of `resolve_error_contract` on the
(Stick, Stone)→Axe producer. -/
theorem resolve_error_contract_witness :
    Resolver.Resolve assembleAxe (fun _ => [⟨5, 77, false⟩, ⟨1001, 0, true⟩])
        [⟨4, 1, false⟩] = .error (.arityMismatch 2 1) ∧
    Resolver.Resolve assembleAxe (fun _ => [⟨5, 77, false⟩, ⟨1001, 0, true⟩])
        [⟨4, 1, false⟩, ⟨9, 2, false⟩] = .error (.typeMismatch 3 9) ∧
    Resolver.Resolve assembleAxe (fun _ => [⟨6, 77, false⟩, ⟨1001, 0, true⟩])
        [⟨4, 1, false⟩, ⟨3, 2, false⟩] = .error (.outputTypeMismatch 5 6) ∧
    Resolver.Resolve assembleAxe (fun _ => [⟨5, 77, false⟩, ⟨1001, 3, false⟩])
        [⟨4, 1, false⟩, ⟨3, 2, false⟩] =
      .ok (⟨5, 77, false⟩, some ⟨1001, 3, false⟩) := by
  refine ⟨?_, ?_, ?_, ?_⟩
  · exact resolve_error_contract.1 assembleAxe _ _ (by decide)
  · exact resolve_error_contract.2.1 assembleAxe _ _ 1 (by decide) (by decide)
      (by decide) (by decide)
  · exact resolve_error_contract.2.2.1 assembleAxe _ _ (by decide) (by decide)
      (by decide) (by decide)
  · exact resolve_error_contract.2.2.2 assembleAxe _ _ (by decide) (by decide)
      (by decide) (by decide) (by decide) (by decide)

/-- Congruence for `flatMap` over the same list. -/
theorem flatMap_congr_mem {α β : Type} {l : List α} {f g : α → List β}
    (h : ∀ a ∈ l, f a = g a) : l.flatMap f = l.flatMap g := by
  induction l with
  | nil => rfl
  | cons a as ih =>
    rw [List.flatMap_cons, List.flatMap_cons, h a (by simp),
      ih fun x hx => h x (by simp [hx])]

/-- With pairwise distinct keys, listing the registry is concatenating the
stored buckets. -/
theorem list_eq_buckets {pm : ProductionMap} (hnd : (pm.map Prod.fst).Nodup) :
    ProductionMap.list pm = pm.flatMap fun e => e.2 := by
  rw [ProductionMap.list]
  apply flatMap_congr_mem
  intro e he
  rw [pmGet, lookup_of_mem_nodup he hnd]
  rfl

/-- Deleting a key does not change the other keys' lookups. -/
theorem lookup_pmDel_ne {pm : ProductionMap} {t s : Cat} (h : s ≠ t) :
    List.lookup s (pmDel pm t) = List.lookup s pm := by
  induction pm with
  | nil => rfl
  | cons e rest ih =>
    rcases e with ⟨k, v⟩
    rw [pmDel, List.filter_cons]
    by_cases hk : k = t
    · subst hk
      rw [if_neg (by simp)]
      rw [List.lookup]
      have hsk : (s == k) = false := by simp [h]
      rw [hsk]
      rw [pmDel] at ih
      exact ih
    · rw [if_pos (by simp [hk])]
      rw [List.lookup, List.lookup]
      cases hsk : s == k with
      | true => rfl
      | false =>
        rw [pmDel] at ih
        exact ih

/-- The deleted key's lookup fails. -/
theorem lookup_pmDel_self {pm : ProductionMap} {t : Cat} :
    List.lookup t (pmDel pm t) = none := by
  rw [lookup_none_iff]
  intro hmem
  rw [List.mem_map] at hmem
  obtain ⟨e, he, hfst⟩ := hmem
  rw [pmDel, List.mem_filter] at he
  rw [hfst] at he
  simp at he

/-- Splitting the bucket concatenation of a distinct-key registry at one key. -/
theorem buckets_split {t : Cat} :
    ∀ (pm : ProductionMap), (pm.map Prod.fst).Nodup →
      (pm.flatMap fun e => e.2).Perm
        (pmGet pm t ++ ((pmDel pm t).flatMap fun e => e.2)) := by
  intro pm
  induction pm with
  | nil => simp [pmGet, List.lookup, pmDel]
  | cons hd rest ih =>
    rcases hd with ⟨k, v⟩
    intro hnd
    have hnd' : (∀ x, (k, x) ∉ rest) ∧ (rest.map Prod.fst).Nodup := by simpa using hnd
    rw [List.flatMap_cons]
    by_cases hk : k = t
    · subst hk
      have hGet : pmGet ((k, v) :: rest) k = v := by
        rw [pmGet, List.lookup]
        simp
      have hDel : pmDel ((k, v) :: rest) k = rest := by
        rw [pmDel, List.filter_cons, if_neg (by simp)]
        rw [← pmDel]
        apply pmDel_not_mem
        rw [lookup_none_iff]
        intro hmem
        rw [List.mem_map] at hmem
        obtain ⟨x, hx, hfx⟩ := hmem
        apply hnd'.1 x.2
        have hxx : x = (k, x.2) := by
          rcases x with ⟨x1, x2⟩
          simp at hfx
          rw [hfx]
        rw [← hxx]
        exact hx
      rw [hGet, hDel]
    · have hGet : pmGet ((k, v) :: rest) t = pmGet rest t := by
        rw [pmGet, List.lookup]
        have hb : (t == k) = false := by simp [Ne.symm hk]
        rw [hb]
        rfl
      have hDel : pmDel ((k, v) :: rest) t = (k, v) :: pmDel rest t := by
        rw [pmDel, List.filter_cons, if_pos (by simp [hk])]
        rfl
      rw [hGet, hDel, List.flatMap_cons]
      have h1 : (v ++ rest.flatMap fun e => e.2).Perm
          (v ++ (pmGet rest t ++ ((pmDel rest t).flatMap fun e => e.2))) :=
        (ih hnd'.2).append_left v
      have h2 : (v ++ (pmGet rest t ++ ((pmDel rest t).flatMap fun e => e.2))).Perm
          (pmGet rest t ++ ((k, v).2 ++ ((pmDel rest t).flatMap fun e => e.2))) := by
        rw [← List.append_assoc, ← List.append_assoc]
        exact List.Perm.append_right _ List.perm_append_comm
      exact h1.trans h2

/-- Two distinct-key registries holding, under every category, permuted
buckets list permuted resolver collections. -/
theorem buckets_perm :
    ∀ (pm1 pm2 : ProductionMap), (pm1.map Prod.fst).Nodup →
      (pm2.map Prod.fst).Nodup →
      (∀ t, (pmGet pm1 t).Perm (pmGet pm2 t)) →
      (pm1.flatMap fun e => e.2).Perm (pm2.flatMap fun e => e.2) := by
  intro pm1
  induction pm1 with
  | nil =>
    intro pm2 _ hnd2 hp
    have hall : ∀ e ∈ pm2, e.2 = ([] : List Resolver) := by
      intro e he
      have h1 : pmGet pm2 e.1 = e.2 := by
        rw [pmGet, lookup_of_mem_nodup he hnd2]
        rfl
      have h2 := (hp e.1).symm
      rw [h1] at h2
      exact h2.eq_nil
    have h0 : pm2.flatMap (fun e => e.2) = [] := by
      rw [flatMap_congr_mem hall]
      simp
    rw [List.flatMap_nil, h0]
  | cons hd rest ih =>
    rcases hd with ⟨t, b⟩
    intro pm2 hnd1 hnd2 hp
    have hnd1' : (∀ x, (t, x) ∉ rest) ∧ (rest.map Prod.fst).Nodup := by simpa using hnd1
    have hGet1 : pmGet ((t, b) :: rest) t = b := by
      rw [pmGet, List.lookup]
      simp
    have hrestt : List.lookup t rest = none := by
      rw [lookup_none_iff]
      intro hmem
      rw [List.mem_map] at hmem
      obtain ⟨x, hx, hfx⟩ := hmem
      apply hnd1'.1 x.2
      have hxx : x = (t, x.2) := by
        rcases x with ⟨x1, x2⟩
        simp at hfx
        rw [hfx]
      rw [← hxx]
      exact hx
    have hb2 : (pmGet pm2 t).Perm b := by
      have h3 := (hp t).symm
      rw [hGet1] at h3
      exact h3
    have hnd2' : ((pmDel pm2 t).map Prod.fst).Nodup := by
      apply List.Nodup.sublist _ hnd2
      exact List.Sublist.map _ (List.filter_sublist _)
    have hp' : ∀ s, (pmGet rest s).Perm (pmGet (pmDel pm2 t) s) := by
      intro s
      by_cases hs : s = t
      · subst hs
        rw [pmGet, hrestt, pmGet, lookup_pmDel_self]
      · have h1 : pmGet ((t, b) :: rest) s = pmGet rest s := by
          rw [pmGet, List.lookup]
          have hb : (s == t) = false := by simp [hs]
          rw [hb]
          rfl
        have h2 : pmGet (pmDel pm2 t) s = pmGet pm2 s := by
          rw [pmGet, lookup_pmDel_ne hs, ← pmGet]
        rw [← h1, h2]
        exact hp s
    have s1 : (((t, b) :: rest).flatMap fun e => e.2) =
        b ++ (rest.flatMap fun e => e.2) := by
      rw [List.flatMap_cons]
    have s2 : (b ++ (rest.flatMap fun e => e.2)).Perm
        (b ++ ((pmDel pm2 t).flatMap fun e => e.2)) :=
      (ih (pmDel pm2 t) hnd1'.2 hnd2' hp').append_left b
    have s3 : (b ++ ((pmDel pm2 t).flatMap fun e => e.2)).Perm
        (pmGet pm2 t ++ ((pmDel pm2 t).flatMap fun e => e.2)) :=
      List.Perm.append_right _ hb2.symm
    have s4 : (pm2.flatMap fun e => e.2).Perm
        (pmGet pm2 t ++ ((pmDel pm2 t).flatMap fun e => e.2)) :=
      buckets_split pm2 hnd2
    rw [s1]
    exact (s2.trans s3).trans s4.symm

/-- `sameRegistry` checks what it says: every category's bucket in one registry
is a permutation of its bucket in the other. -/
theorem sameRegistry_spec {pm1 pm2 : ProductionMap}
    (h : sameRegistry pm1 pm2 = true) :
    ∀ t, (pmGet pm1 t).Perm (pmGet pm2 t) := by
  intro t
  rw [sameRegistry, List.all_eq_true] at h
  by_cases h1 : t ∈ pm1.map Prod.fst
  · have := h t (by rw [List.mem_append]; exact Or.inl h1)
    exact of_decide_eq_true this
  · by_cases h2 : t ∈ pm2.map Prod.fst
    · have := h t (by rw [List.mem_append]; exact Or.inr h2)
      exact of_decide_eq_true this
    · rw [pmGet, pmGet, lookup_none_iff.2 h1, lookup_none_iff.2 h2]

/-- A well-formed registry has pairwise distinct keys. -/
theorem WF_nodup_keys {pm : ProductionMap} (h : ProductionMap.WF pm = true) :
    (pm.map Prod.fst).Nodup := by
  rw [ProductionMap.WF, Bool.and_eq_true] at h
  exact of_decide_eq_true h.1

/-- Counting the filterMap result sums each element's contribution. -/
theorem countList_filterMap (F : Resolver → Option PossibilityNode) :
    ∀ L : List Resolver, countList (L.filterMap F) =
      (L.map fun r => match F r with
        | some n => PossibilityNode.Count n
        | none => 0).sum := by
  intro L
  induction L with
  | nil => rfl
  | cons a as ih =>
    rw [List.filterMap_cons, List.map_cons, List.sum_cons]
    cases hFa : F a with
    | none => rw [ih]; simp
    | some n => rw [countList, ih]

/-- Registries listing permuted resolver collections build possibility trees of
equal total node count, at every fuel and from every starting set. -/
theorem count_perm_core {pm1 pm2 : ProductionMap}
    (hl : (ProductionMap.list pm1).Perm (ProductionMap.list pm2)) :
    ∀ (f : Nat) (S : List Cat),
      countList (ProductionMap.BuildPossibilityTree pm1 S f) =
        countList (ProductionMap.BuildPossibilityTree pm2 S f) := by
  intro f
  induction f with
  | zero => intro S; rfl
  | succ f ih =>
    intro S
    rw [ProductionMap.BuildPossibilityTree, ProductionMap.BuildPossibilityTree]
    rw [countList_filterMap, countList_filterMap]
    have hfun : ∀ r : Resolver,
        (match (if r.OutputType ∈ S then none
          else if r.MissingInputs S ≠ [] then none
          else some (PossibilityNode.mk (some r) S
            (ProductionMap.BuildPossibilityTree pm1 (S ++ [r.OutputType]) f))) with
         | some n => PossibilityNode.Count n
         | none => 0) =
        (match (if r.OutputType ∈ S then none
          else if r.MissingInputs S ≠ [] then none
          else some (PossibilityNode.mk (some r) S
            (ProductionMap.BuildPossibilityTree pm2 (S ++ [r.OutputType]) f))) with
         | some n => PossibilityNode.Count n
         | none => 0) := by
      intro r
      by_cases hmem : r.OutputType ∈ S
      · simp [hmem]
      · by_cases hmi : r.MissingInputs S ≠ []
        · simp [hmem, hmi]
        · simp only [if_neg hmem, if_neg hmi]
          rw [PossibilityNode.Count, PossibilityNode.Count, ih]
    rw [List.map_congr_left fun r _ => hfun r]
    exact (hl.map _).sum_eq

/-- Same registry contents give the same distinct output categories. -/
theorem outCats_eq_of_list_perm {pm1 pm2 : ProductionMap}
    (hl : (ProductionMap.list pm1).Perm (ProductionMap.list pm2)) :
    ProductionMap.outCats pm1 = ProductionMap.outCats pm2 := by
  rw [ProductionMap.outCats, ProductionMap.outCats]
  exact List.toFinset_eq_of_perm _ _ (hl.map Resolver.OutputType)

/-- Claim C9: the node count of the possibility tree built from a fixed
starting category set depends only on the final contents of the registry — for
any two well-formed registries holding the same producers under every category
(as two registration orders of the same producers do), the built trees have
equal `Count`. -/
theorem count_independent_of_registration_order {pm1 pm2 : ProductionMap}
    (S : List Cat) (h1 : ProductionMap.WF pm1 = true)
    (h2 : ProductionMap.WF pm2 = true) (hs : sameRegistry pm1 pm2 = true) :
    (ProductionMap.PossibilityTree pm1 S).Count =
      (ProductionMap.PossibilityTree pm2 S).Count := by
  have hnd1 := WF_nodup_keys h1
  have hnd2 := WF_nodup_keys h2
  have hl : (ProductionMap.list pm1).Perm (ProductionMap.list pm2) := by
    rw [list_eq_buckets hnd1, list_eq_buckets hnd2]
    exact buckets_perm pm1 pm2 hnd1 hnd2 (sameRegistry_spec hs)
  have hfuel : ProductionMap.buildFuel pm1 S = ProductionMap.buildFuel pm2 S := by
    rw [ProductionMap.buildFuel, ProductionMap.buildFuel,
      outCats_eq_of_list_perm hl]
  rw [ProductionMap.PossibilityTree, ProductionMap.PossibilityTree,
    PossibilityNode.Count, PossibilityNode.Count,
    ProductionMap.Steps, ProductionMap.Steps, hfuel]
  rw [count_perm_core hl (ProductionMap.buildFuel pm2 S) S]

/-- Concrete run of `count_independent_of_registration_order`: registering
`chiselStone` then `pickupStick`, or the other way round, gives possibility
trees of equal count from the Boulder/Tree starting set. -/
theorem count_independent_of_registration_order_witness :
    ProductionMap.WF pmB = true ∧ ProductionMap.WF pmB' = true ∧
      sameRegistry pmB pmB' = true ∧
      (ProductionMap.PossibilityTree pmB [1, 2]).Count =
        (ProductionMap.PossibilityTree pmB' [1, 2]).Count :=
  ⟨by decide, by decide, by decide,
    count_independent_of_registration_order [1, 2] (by decide) (by decide)
      (by decide)⟩

/-- A relation's transitive closure holds exactly when a nonempty finite walk
connects the endpoints. -/
theorem transGen_iff_walk {α : Type} (R : α → α → Prop) (a b : α) :
    Relation.TransGen R a b ↔
      ∃ (k : Nat) (g : Nat → α), 1 ≤ k ∧ g 0 = a ∧ g k = b ∧
        ∀ i, i < k → R (g i) (g (i + 1)) := by
  constructor
  · intro h
    induction h with
    | @single c hr =>
      refine ⟨1, fun n => if n = 0 then a else c, le_rfl, by simp, by simp, ?_⟩
      intro i hi
      have hi0 : i = 0 := by omega
      subst hi0
      simpa using hr
    | @tail b' c hab hbc ih =>
      obtain ⟨k, g, hk, h0, hkb, hstep⟩ := ih
      refine ⟨k + 1, fun n => if n ≤ k then g n else c, by omega, ?_, ?_, ?_⟩
      · simp [h0]
      · simp
      · intro i hi
        by_cases hik : i < k
        · simp only [if_pos (by omega : i ≤ k), if_pos (by omega : i + 1 ≤ k)]
          exact hstep i hik
        · have hik' : i = k := by omega
          subst hik'
          simp only [if_pos (le_refl i), if_neg (by omega : ¬ i + 1 ≤ i)]
          rw [hkb]
          exact hbc
  · rintro ⟨k, g, hk, h0, hkb, hstep⟩
    have key : ∀ j, 1 ≤ j → j ≤ k → Relation.TransGen R (g 0) (g j) := by
      intro j
      induction j with
      | zero => omega
      | succ j ihj =>
        intro _ hj
        by_cases hj0 : j = 0
        · subst hj0
          exact Relation.TransGen.single (by simpa using hstep 0 (by omega))
        · exact Relation.TransGen.tail (ihj (by omega) (by omega))
            (hstep j (by omega))
    rw [← h0, ← hkb]
    exact key k hk le_rfl

/-- A valid pointer is one of the registry's pointers. -/
theorem mem_ptrsF_of_valid {pm : ProductionMap} {p : Ptr}
    (h : validPtr pm p) : p ∈ ptrsF pm := by
  rw [ptrsF, Finset.mem_biUnion]
  rw [validPtr] at h
  refine ⟨p.1, ?_, ?_⟩
  · rw [List.mem_toFinset]
    cases hl : List.lookup p.1 pm with
    | none =>
      rw [pmGet, hl] at h
      simp at h
    | some b => exact List.mem_map_of_mem Prod.fst (lookup_mem hl)
  · rw [Finset.mem_image]
    exact ⟨p.2, Finset.mem_range.2 h, rfl⟩

/-- The dereferenced resolver of a valid pointer is stored in its bucket. -/
theorem deref_mem_bucket {pm : ProductionMap} {p : Ptr}
    (h : validPtr pm p) : derefPtr pm p ∈ pmGet pm p.1 := by
  rw [validPtr] at h
  rw [derefPtr, List.getD_eq_getElem _ _ h]
  exact List.getElem_mem h

/-- The dereferenced resolver of a valid pointer is a registered resolver. -/
theorem deref_mem_list {pm : ProductionMap} {p : Ptr}
    (h : validPtr pm p) : derefPtr pm p ∈ ProductionMap.list pm := by
  rw [ProductionMap.list, List.mem_flatMap]
  have hb := deref_mem_bucket h
  rw [validPtr] at h
  cases hl : List.lookup p.1 pm with
  | none =>
    rw [pmGet, hl] at h
    simp at h
  | some b =>
    refine ⟨(p.1, b), lookup_mem hl, ?_⟩
    exact hb

/-- In a well-formed registry every stored resolver's declared output category
is its bucket's key. -/
theorem deref_output_eq_key {pm : ProductionMap} {p : Ptr}
    (hwf : ProductionMap.WF pm = true) (h : validPtr pm p) :
    (derefPtr pm p).OutputType = p.1 := by
  have hb := deref_mem_bucket h
  rw [validPtr] at h
  cases hl : List.lookup p.1 pm with
  | none =>
    rw [pmGet, hl] at h
    simp at h
  | some b =>
    rw [ProductionMap.WF, Bool.and_eq_true, List.all_eq_true] at hwf
    have := hwf.2 (p.1, b) (lookup_mem hl)
    rw [Bool.and_eq_true, List.all_eq_true] at this
    have h2 := this.2 (derefPtr pm p) (by rw [pmGet, hl] at hb; exact hb)
    simpa using h2

/-- Soundness of the DFS: whenever `HasCycle` answers true there is a walk from
the start along dependency steps whose last node is in the visited set or
repeats an earlier node of the walk. -/
theorem hasCycle_walk_of_true {pm : ProductionMap} :
    ∀ (f : Nat) (p : Ptr) (v : List Ptr),
      ProductionMap.HasCycle pm p v f = true →
      ∃ (k : Nat) (g : Nat → Ptr), g 0 = p ∧
        (∀ i, i < k → ptrStep pm (g i) (g (i + 1))) ∧
        (g k ∈ v ∨ ∃ j, j < k ∧ g j = g k) := by
  intro f
  induction f with
  | zero => intro p v h; cases h
  | succ f ih =>
    intro p v h
    rw [ProductionMap.HasCycle] at h
    by_cases hmem : p ∈ v
    · exact ⟨0, fun _ => p, rfl, by omega, Or.inl hmem⟩
    · rw [if_neg hmem, List.any_eq_true] at h
      obtain ⟨t, ht, h2⟩ := h
      rw [List.any_eq_true] at h2
      obtain ⟨i, hi, h3⟩ := h2
      rw [List.mem_range] at hi
      obtain ⟨k, g, hg0, hgstep, hgend⟩ := ih (t, i) (p :: v) h3
      refine ⟨k + 1, fun n => if n = 0 then p else g (n - 1), rfl, ?_, ?_⟩
      · intro n hn
        by_cases hn0 : n = 0
        · subst hn0
          simp only [if_pos rfl, if_neg (by omega : ¬ (0 : Nat) + 1 = 0)]
          have : (0 : Nat) + 1 - 1 = 0 := by omega
          rw [this, hg0]
          exact ⟨ht, hi⟩
        · simp only [if_neg hn0, if_neg (by omega : ¬ n + 1 = 0)]
          have h4 : n + 1 - 1 = (n - 1) + 1 := by omega
          rw [h4]
          exact hgstep (n - 1) (by omega)
      · simp only [if_neg (by omega : ¬ k + 1 = 0)]
        have h5 : k + 1 - 1 = k := by omega
        rw [h5]
        rcases hgend with hv | ⟨j, hj, hje⟩
        · rcases List.mem_cons.1 hv with he | hv'
          · right
            exact ⟨0, by omega, by simp [he]⟩
          · left
            exact hv'
        · right
          refine ⟨j + 1, by omega, ?_⟩
          simp only [if_neg (by omega : ¬ j + 1 = 0)]
          have h6 : j + 1 - 1 = j := by omega
          rw [h6]
          exact hje

/-- Completeness of the DFS: a walk from a valid start whose last node lies in
the visited set or repeats an earlier node forces `HasCycle` to answer true,
for any fuel exceeding the number of unvisited stored entries. -/
theorem hasCycle_true_of_walk {pm : ProductionMap} :
    ∀ (f : Nat) (v : List Ptr) (p : Ptr) (k : Nat) (g : Nat → Ptr),
      (ptrsF pm \ v.toFinset).card < f →
      validPtr pm p →
      g 0 = p →
      (∀ i, i < k → ptrStep pm (g i) (g (i + 1))) →
      (g k ∈ v ∨ ∃ j, j < k ∧ g j = g k) →
      ProductionMap.HasCycle pm p v f = true := by
  intro f
  induction f with
  | zero => intro v p k g hcard; omega
  | succ f ih =>
    intro v p k g hcard hvalid hg0 hstep hend
    rw [ProductionMap.HasCycle]
    by_cases hmem : p ∈ v
    · rw [if_pos hmem]
    · rw [if_neg hmem]
      cases k with
      | zero =>
        rcases hend with hv | ⟨j, hj, _⟩
        · rw [hg0] at hv
          exact absurd hv hmem
        · omega
      | succ k =>
        have hs0 := hstep 0 (by omega)
        rw [hg0] at hs0
        obtain ⟨hin, hlt⟩ := hs0
        rw [List.any_eq_true]
        refine ⟨(g 1).1, hin, ?_⟩
        rw [List.any_eq_true]
        refine ⟨(g 1).2, List.mem_range.2 hlt, ?_⟩
        have hcard' : (ptrsF pm \ (p :: v).toFinset).card < f := by
          have hpmem : p ∈ ptrsF pm \ v.toFinset :=
            Finset.mem_sdiff.2 ⟨mem_ptrsF_of_valid hvalid, by simpa using hmem⟩
          have hins : (p :: v).toFinset = insert p v.toFinset := by simp
          rw [hins, Finset.sdiff_insert]
          have h8 := Finset.card_erase_of_mem hpmem
          have h9 := Finset.card_pos.2 ⟨p, hpmem⟩
          omega
        apply ih (p :: v) (g 1) k (fun n => g (n + 1)) hcard' hlt rfl
        · intro n hn
          exact hstep (n + 1) (by omega)
        · rcases hend with hv | ⟨j, hj, hje⟩
          · left
            exact List.mem_cons_of_mem p hv
          · by_cases hj0 : j = 0
            · subst hj0
              left
              rw [← hje, hg0]
              exact List.mem_cons_self p v
            · right
              refine ⟨j - 1, by omega, ?_⟩
              have h7 : j - 1 + 1 = j := by omega
              rw [h7]
              exact hje

/-- With distinct keys there are at most `pmSize` valid pointers. -/
theorem card_ptrsF_le {pm : ProductionMap} (hnd : (pm.map Prod.fst).Nodup) :
    (ptrsF pm).card ≤ pmSize pm := by
  rw [ptrsF]
  apply le_trans Finset.card_biUnion_le
  have h2 : ∀ t ∈ (pm.map Prod.fst).toFinset,
      ((Finset.range (pmGet pm t).length).image fun i => ((t, i) : Ptr)).card ≤
        (pmGet pm t).length := by
    intro t _
    apply le_trans Finset.card_image_le
    rw [Finset.card_range]
  apply le_trans (Finset.sum_le_sum h2)
  rw [List.sum_toFinset _ hnd, List.map_map, pmSize]
  exact le_refl _

/-- The DFS over all starting entries answers "not a DAG" exactly when the
entry-pointer graph has a cycle. -/
theorem isDAG_false_iff_ptr_cycle {pm : ProductionMap}
    (hnd : (pm.map Prod.fst).Nodup) :
    ProductionMap.IsDAG pm = false ↔ ∃ p, Relation.TransGen (ptrStep pm) p p := by
  rw [ProductionMap.IsDAG, Bool.not_eq_false']
  constructor
  · intro h
    rw [List.any_eq_true] at h
    obtain ⟨e, he, h2⟩ := h
    rw [List.any_eq_true] at h2
    obtain ⟨i, hi, h3⟩ := h2
    rw [List.mem_range] at hi
    obtain ⟨k, g, hg0, hstep, hend⟩ := hasCycle_walk_of_true _ _ _ h3
    rcases hend with hv | ⟨j, hj, hje⟩
    · cases hv
    · refine ⟨g j, ?_⟩
      rw [transGen_iff_walk]
      refine ⟨k - j, fun n => g (j + n), by omega, by simp, ?_, ?_⟩
      · have h4 : j + (k - j) = k := by omega
        show g (j + (k - j)) = g j
        rw [h4]
        exact hje.symm
      · intro n hn
        have h5 := hstep (j + n) (by omega)
        have h6 : j + n + 1 = j + (n + 1) := by omega
        rw [h6] at h5
        exact h5
  · rintro ⟨p, hcyc⟩
    rw [transGen_iff_walk] at hcyc
    obtain ⟨k, g, hk, hg0, hgk, hstep⟩ := hcyc
    have hvalid : validPtr pm p := by
      have h7 := hstep (k - 1) (by omega)
      have h9 : k - 1 + 1 = k := by omega
      rw [h9] at h7
      rw [validPtr, ← hgk]
      exact h7.2
    rw [List.any_eq_true]
    have hv' := hvalid
    rw [validPtr] at hv'
    cases hl : List.lookup p.1 pm with
    | none =>
      rw [pmGet, hl] at hv'
      simp at hv'
    | some b =>
      refine ⟨(p.1, b), lookup_mem hl, ?_⟩
      rw [List.any_eq_true]
      refine ⟨p.2, List.mem_range.2 hv', ?_⟩
      apply hasCycle_true_of_walk (pmSize pm + 1) [] (p.1, p.2) k g ?hcard ?hval ?hg ?hst ?hen
      case hcard =>
        have h10 := card_ptrsF_le hnd
        have h11 : (([] : List Ptr).toFinset : Finset Ptr) = ∅ := rfl
        rw [h11, Finset.sdiff_empty]
        omega
      case hval => exact hvalid
      case hg => exact hg0
      case hst => exact hstep
      case hen =>
        right
        exact ⟨0, by omega, by rw [hg0, hgk]⟩

/-- A cycle of the entry-pointer graph yields a cycle of the category
dependency graph: each pointer step from `p` to `q` witnesses the category
edge from `q`'s bucket key (an input of `p`'s resolver) to `p`'s bucket key
(its output, by well-formedness). -/
theorem cat_cycle_of_ptr_cycle {pm : ProductionMap}
    (hwf : ProductionMap.WF pm = true)
    (h : ∃ p, Relation.TransGen (ptrStep pm) p p) :
    ∃ c, Relation.TransGen (catEdge pm) c c := by
  obtain ⟨p, hp⟩ := h
  rw [transGen_iff_walk] at hp
  obtain ⟨k, g, hk, hg0, hgk, hstep⟩ := hp
  have hvalid : ∀ i, i ≤ k → validPtr pm (g i) := by
    intro i hi
    by_cases hi0 : i = 0
    · subst hi0
      rw [hg0, ← hgk]
      have h7 := hstep (k - 1) (by omega)
      have h9 : k - 1 + 1 = k := by omega
      rw [h9] at h7
      exact h7.2
    · have h7 := hstep (i - 1) (by omega)
      have h9 : i - 1 + 1 = i := by omega
      rw [h9] at h7
      exact h7.2
  refine ⟨p.1, ?_⟩
  rw [transGen_iff_walk]
  refine ⟨k, fun n => (g (k - n)).1, hk, ?_, ?_, ?_⟩
  · show (g (k - 0)).1 = p.1
    rw [Nat.sub_zero, hgk]
  · show (g (k - k)).1 = p.1
    rw [Nat.sub_self, hg0]
  · intro n hn
    show catEdge pm (g (k - n)).1 (g (k - (n + 1))).1
    have hi1 : k - n = (k - n - 1) + 1 := by omega
    have h10 : k - (n + 1) = k - n - 1 := by omega
    have hstepi := hstep (k - n - 1) (by omega)
    rw [catEdge]
    refine ⟨derefPtr pm (g (k - n - 1)),
      deref_mem_list (hvalid (k - n - 1) (by omega)), ?_, ?_⟩
    · rw [hi1]
      exact hstepi.1
    · rw [h10]
      exact deref_output_eq_key hwf (hvalid (k - n - 1) (by omega))

/-- A cycle of the category dependency graph yields a cycle of the
entry-pointer graph: each category edge is realised by a stored resolver, whose
bucket pointer steps to the pointer realising the previous edge. -/
theorem ptr_cycle_of_cat_cycle {pm : ProductionMap}
    (hwf : ProductionMap.WF pm = true)
    (h : ∃ c, Relation.TransGen (catEdge pm) c c) :
    ∃ p, Relation.TransGen (ptrStep pm) p p := by
  obtain ⟨c, hc⟩ := h
  rw [transGen_iff_walk] at hc
  obtain ⟨m, w, hm, hw0, hwm, hstep⟩ := hc
  have hex : ∀ n, ∃ r : Resolver, n < m →
      (r ∈ ProductionMap.list pm ∧ w n ∈ r.InputTypes ∧
        r.OutputType = w (n + 1)) := by
    intro n
    by_cases hn : n < m
    · obtain ⟨r, hr⟩ := hstep n hn
      exact ⟨r, fun _ => hr⟩
    · exact ⟨⟨0, false, [], []⟩, fun hcon => absurd hcon hn⟩
  choose rf hrf using hex
  have hex2 : ∀ n, ∃ i : Nat, n < m →
      (i < (pmGet pm (w (n + 1))).length ∧
        (pmGet pm (w (n + 1))).getD i ⟨0, false, [], []⟩ = rf n) := by
    intro n
    by_cases hn : n < m
    · obtain ⟨hlist, hins, hout⟩ := hrf n hn
      rw [ProductionMap.list, List.mem_flatMap] at hlist
      obtain ⟨e, he, hmem⟩ := hlist
      cases hl : List.lookup e.1 pm with
      | none =>
        rw [pmGet, hl] at hmem
        simp at hmem
      | some b =>
        have hb : pmGet pm e.1 = b := by rw [pmGet, hl]; rfl
        rw [hb] at hmem
        have hkey : e.1 = w (n + 1) := by
          rw [ProductionMap.WF, Bool.and_eq_true, List.all_eq_true] at hwf
          have h11 := hwf.2 (e.1, b) (lookup_mem hl)
          rw [Bool.and_eq_true, List.all_eq_true] at h11
          have h12 := h11.2 (rf n) hmem
          have h12a : (rf n).OutputType = e.1 := by simpa using h12
          rw [← hout, h12a]
        obtain ⟨i, hi, hgi⟩ := List.getElem_of_mem hmem
        refine ⟨i, fun _ => ⟨?_, ?_⟩⟩
        · rw [← hkey, hb]
          exact hi
        · have h13 : pmGet pm (w (n + 1)) = b := by rw [← hkey, hb]
          rw [h13, List.getD_eq_getElem _ _ hi, hgi]
    · exact ⟨0, fun hcon => absurd hcon hn⟩
  choose idx hidx using hex2
  have hq : ∀ n, n < m → validPtr pm (w (n + 1), idx n) ∧
      derefPtr pm (w (n + 1), idx n) = rf n := by
    intro n hn
    obtain ⟨h14, h15⟩ := hidx n hn
    exact ⟨h14, by rw [derefPtr]; exact h15⟩
  refine ⟨(w (m - 1 + 1), idx (m - 1)), ?_⟩
  rw [transGen_iff_walk]
  refine ⟨m, fun j => if j = m then (w (m - 1 + 1), idx (m - 1))
    else (w (m - 1 - j + 1), idx (m - 1 - j)), hm, ?_, ?_, ?_⟩
  · have hne : ¬ (0 : Nat) = m := by omega
    simp only [if_neg hne, Nat.sub_zero]
  · simp
  · intro j hj
    by_cases hjlast : j = m - 1
    · subst hjlast
      have h18 : m - 1 + 1 = m := by omega
      simp only [if_neg (by omega : ¬ m - 1 = m), if_pos h18, Nat.sub_self]
      have h16 := hq 0 (by omega)
      have h17 := hq (m - 1) (by omega)
      rw [ptrStep]
      constructor
      · rw [h16.2]
        show w (m - 1 + 1) ∈ (rf 0).InputTypes
        rw [h18, hwm, ← hw0]
        exact (hrf 0 (by omega)).2.1
      · exact h17.1
    · have hj1 : j < m - 1 := by omega
      simp only [if_neg (by omega : ¬ j = m), if_neg (by omega : ¬ j + 1 = m)]
      have hn := hq (m - 1 - j) (by omega)
      have hn' := hq (m - 1 - (j + 1)) (by omega)
      rw [ptrStep]
      constructor
      · rw [hn.2]
        show w (m - 1 - (j + 1) + 1) ∈ (rf (m - 1 - j)).InputTypes
        have h19 : m - 1 - (j + 1) + 1 = m - 1 - j := by omega
        rw [h19]
        exact (hrf (m - 1 - j) (by omega)).2.1
      · exact hn'.1

/-- Claim C2: on every well-formed registry, `IsDAG` answers true exactly when
the directed graph whose edges run from each registered producer's required
input categories to its output category is acyclic.  In particular two
independent sibling paths meeting at the same producer are never reported as a
cycle, since each branch of the walk carries its own visited set. -/
theorem isDAG_iff_category_graph_acyclic {pm : ProductionMap}
    (hwf : ProductionMap.WF pm = true) :
    ProductionMap.IsDAG pm = true ↔ CatAcyclic pm := by
  have hnd := WF_nodup_keys hwf
  constructor
  · intro hdag c hcyc
    have hptr := ptr_cycle_of_cat_cycle hwf ⟨c, hcyc⟩
    have hfalse := (isDAG_false_iff_ptr_cycle hnd).2 hptr
    rw [hdag] at hfalse
    cases hfalse
  · intro hacyc
    by_contra hne
    have hfalse : ProductionMap.IsDAG pm = false := by
      cases hd : ProductionMap.IsDAG pm
      · rfl
      · exact absurd hd hne
    obtain ⟨p, hp⟩ := (isDAG_false_iff_ptr_cycle hnd).1 hfalse
    obtain ⟨c, hc⟩ := cat_cycle_of_ptr_cycle hwf ⟨p, hp⟩
    exact hacyc c hc

/-- Concrete run of `isDAG_iff_category_graph_acyclic` on the diamond registry,
where two independent sibling paths from the (51, 52)→53 producer reach the
two producers out of category 50 and meet again without forming a cycle. -/
theorem isDAG_iff_category_graph_acyclic_witness :
    ProductionMap.WF pmDia = true ∧ ProductionMap.IsDAG pmDia = true ∧
      (ProductionMap.IsDAG pmDia = true ↔ CatAcyclic pmDia) :=
  ⟨by decide, by decide, isDAG_iff_category_graph_acyclic (by decide)⟩
